import Mathlib

/-!
Verification development for the j-perm declarative JSON-transformation
engine.  Every definition below is a shallow embedding of a function of the
Python sources (file and symbol named in each doc comment); stateful code is
translated to explicit state passing, Python exceptions to `Except` /
explicit outcome types.
-/

namespace JPerm

/-- JSON value tree carried through the engine (spec §3 "Value"): null,
booleans, integers, strings, arrays, objects (insertion-ordered field
lists).  Floats and tuples do not occur in any claim and are omitted;
tuples are normalised to arrays before reaching handlers. -/
inductive JValue where
  | null
  | bool (b : Bool)
  | int (n : Int)
  | str (s : String)
  | arr (xs : List JValue)
  | obj (fs : List (String × JValue))
deriving Repr

mutual

/-- Structural equality on values (Python `==` restricted to the JSON
fragment: no bool/int coercion is exercised by any theorem below). -/
def JValue.beq : JValue → JValue → Bool
  | .null, .null => true
  | .bool a, .bool b => a == b
  | .int a, .int b => a == b
  | .str a, .str b => a == b
  | .arr a, .arr b => JValue.beqList a b
  | .obj a, .obj b => JValue.beqFields a b
  | _, _ => false

/-- Elementwise equality of value lists. -/
def JValue.beqList : List JValue → List JValue → Bool
  | [], [] => true
  | a :: as_, b :: bs => JValue.beq a b && JValue.beqList as_ bs
  | _, _ => false

/-- Elementwise equality of field lists. -/
def JValue.beqFields : List (String × JValue) → List (String × JValue) → Bool
  | [], [] => true
  | (ka, va) :: as_, (kb, vb) :: bs =>
      ka == kb && JValue.beq va vb && JValue.beqFields as_ bs
  | _, _ => false

end

instance : BEq JValue := ⟨JValue.beq⟩

mutual

theorem JValue.beq_refl : (a : JValue) → JValue.beq a a = true
  | .null => rfl
  | .bool b => by simp [JValue.beq]
  | .int n => by simp [JValue.beq]
  | .str s => by simp [JValue.beq]
  | .arr xs => by simp [JValue.beq, JValue.beqList_refl xs]
  | .obj fs => by simp [JValue.beq, JValue.beqFields_refl fs]

theorem JValue.beqList_refl : (xs : List JValue) → JValue.beqList xs xs = true
  | [] => rfl
  | a :: as_ => by simp [JValue.beqList, JValue.beq_refl a, JValue.beqList_refl as_]

theorem JValue.beqFields_refl :
    (fs : List (String × JValue)) → JValue.beqFields fs fs = true
  | [] => rfl
  | (k, v) :: fs => by
      simp [JValue.beqFields, JValue.beq_refl v, JValue.beqFields_refl fs]

end

mutual

theorem JValue.eq_of_beq : {a b : JValue} → JValue.beq a b = true → a = b
  | .null, .null, _ => rfl
  | .bool _, .bool _, h => by
      simp [JValue.beq] at h; simp [h]
  | .int _, .int _, h => by
      simp [JValue.beq] at h; simp [h]
  | .str _, .str _, h => by
      simp [JValue.beq] at h; simp [h]
  | .arr as_, .arr bs, h => by
      simp only [JValue.beq] at h
      exact congrArg JValue.arr (JValue.eqList_of_beq h)
  | .obj as_, .obj bs, h => by
      simp only [JValue.beq] at h
      exact congrArg JValue.obj (JValue.eqFields_of_beq h)

theorem JValue.eqList_of_beq :
    {as_ bs : List JValue} → JValue.beqList as_ bs = true → as_ = bs
  | [], [], _ => rfl
  | a :: as_, b :: bs, h => by
      simp only [JValue.beqList, Bool.and_eq_true] at h
      rw [JValue.eq_of_beq h.1, JValue.eqList_of_beq h.2]

theorem JValue.eqFields_of_beq :
    {as_ bs : List (String × JValue)} → JValue.beqFields as_ bs = true → as_ = bs
  | [], [], _ => rfl
  | (ka, va) :: as_, (kb, vb) :: bs, h => by
      simp only [JValue.beqFields, Bool.and_eq_true] at h
      obtain ⟨⟨hk, hv⟩, ht⟩ := h
      rw [show ka = kb from by simpa using hk, JValue.eq_of_beq hv,
        JValue.eqFields_of_beq ht]

end

instance : LawfulBEq JValue where
  eq_of_beq := JValue.eq_of_beq
  rfl := JValue.beq_refl _

instance : DecidableEq JValue := fun a b =>
  if h : JValue.beq a b = true then .isTrue (JValue.eq_of_beq h)
  else .isFalse (fun he => h (he ▸ JValue.beq_refl a))

/-- Python exception classes reached by the embedded code paths. -/
inductive PyErr where
  | keyError
  | indexError
  | typeError
  | valueError
  | runtimeError
  | recursionError
  | assertionError
  | attributeError
  | jpermError (msg : String)
  | unmodelled (tag : String)
deriving DecidableEq, Repr

/-- Python exceptions as seen by `except` clauses: control-flow signals
(`BreakSignal`, `ContinueSignal`, `ReturnSignal`), the pipeline signal
`RawValueSignal`, and plain errors.  All of them derive from `Exception`
in `core.py`, so a bare `except Exception` catches every variant. -/
inductive PyExc where
  | brk
  | cont
  | ret (v : JValue)
  | rawSig (v : JValue)
  | err (e : PyErr)
deriving DecidableEq, Repr


/-- Decidable equality for `Except` results (used to evaluate embedded
computations on concrete inputs). -/
instance instDecEqExcept {ε α : Type} [DecidableEq ε] [DecidableEq α] :
    DecidableEq (Except ε α)
  | .ok a, .ok b =>
      if h : a = b then .isTrue (by rw [h])
      else .isFalse (by intro he; cases he; exact h rfl)
  | .error e, .error f =>
      if h : e = f then .isTrue (by rw [h])
      else .isFalse (by intro he; cases he; exact h rfl)
  | .ok _, .error _ => .isFalse (by intro he; cases he)
  | .error _, .ok _ => .isFalse (by intro he; cases he)

/-- First-occurrence lookup in an insertion-ordered field list (Python
`dict[key]` access on the embedded object). -/
def lookupField : List (String × JValue) → String → Option JValue
  | [], _ => none
  | (k, v) :: fs, key => if k = key then some v else lookupField fs key

/-- Python `dict[key] = value`: replace in place if the key exists,
append at the end otherwise. -/
def setField : List (String × JValue) → String → JValue → List (String × JValue)
  | [], key, value => [(key, value)]
  | (k, v) :: fs, key, value =>
      if k = key then (k, value) :: fs else (k, v) :: setField fs key value

/-- Python `del dict[key]`: drop the first matching entry; `KeyError`
when absent (callers check the error). -/
def delField : List (String × JValue) → String → Option (List (String × JValue))
  | [], _ => none
  | (k, v) :: fs, key =>
      if k = key then some fs
      else match delField fs key with
        | some fs' => some ((k, v) :: fs')
        | none => none

/-! ### Python primitives used by the resolver -/

/-- Non-overlapping left-to-right replacement on character lists (the
semantics of Python `str.replace` for a non-empty pattern); `fuel` is the
input length plus one, enough since every round consumes a character. -/
def chReplace (pat rep : List Char) : Nat → List Char → List Char
  | 0, s => s
  | _ + 1, [] => []
  | fuel + 1, c :: rest =>
      if pat ≠ [] ∧ pat.isPrefixOf (c :: rest) then
        rep ++ chReplace pat rep fuel ((c :: rest).drop pat.length)
      else c :: chReplace pat rep fuel rest

/-- Python `s.replace(pat, rep)` (callers only pass non-empty patterns). -/
def strReplace (s pat rep : String) : String :=
  String.mk (chReplace pat.toList rep.toList (s.toList.length + 1) s.toList)

/-- Single-separator split (Python `s.split(sep)` / Lean `splitOn` for a
one-character separator). -/
def chSplit (sep : Char) : List Char → List Char → List String
  | [], acc => [String.mk acc.reverse]
  | c :: rest, acc =>
      if c = sep then String.mk acc.reverse :: chSplit sep rest []
      else chSplit sep rest (c :: acc)

/-- Python `s.startswith(pat)`. -/
def strStarts (s pat : String) : Bool := pat.toList.isPrefixOf s.toList

/-- Python `s.endswith(pat)`. -/
def strEnds (s pat : String) : Bool :=
  pat.toList.reverse.isPrefixOf s.toList.reverse

/-- Character-count drop from the front. -/
def strDrop (s : String) (n : Nat) : String := String.mk (s.toList.drop n)

/-- Character-count drop from the back. -/
def strDropRight (s : String) (n : Nat) : String :=
  String.mk (s.toList.take (s.toList.length - n))

/-- Python `s.strip()` (surrounding whitespace). -/
def strTrim (s : String) : String :=
  String.mk (((s.toList.dropWhile Char.isWhitespace).reverse.dropWhile
    Char.isWhitespace).reverse)

/-- Python `s.lstrip()` (leading whitespace). -/
def strTrimLeft (s : String) : String :=
  String.mk (s.toList.dropWhile Char.isWhitespace)

/-- Digits-only check for a character list. -/
def allDigits (cs : List Char) : Bool := cs.all (·.isDigit)

/-- Decimal value of a digit list (most significant first). -/
def digitsToNat : List Char → Nat → Nat
  | [], acc => acc
  | c :: cs, acc => digitsToNat cs (acc * 10 + (c.toNat - '0'.toNat))

/-- Python `int(s)`: optional surrounding whitespace, optional sign, then at
least one decimal digit; anything else raises `ValueError`.  (Other Python
literal forms — underscores, non-decimal bases — never occur in the pointer
paths this development evaluates.) -/
def parsePyInt (s : String) : Except PyErr Int :=
  let cs := (strTrim s).toList
  match cs with
  | [] => .error .valueError
  | '-' :: rest =>
      if rest ≠ [] ∧ allDigits rest then .ok (-(digitsToNat rest 0 : Int))
      else .error .valueError
  | '+' :: rest =>
      if rest ≠ [] ∧ allDigits rest then .ok (digitsToNat rest 0 : Int)
      else .error .valueError
  | _ =>
      if allDigits cs then .ok (digitsToNat cs 0 : Int)
      else .error .valueError

/-- Python sequence indexing `xs[i]` with negative-index normalisation:
returns the normalised non-negative position, or none (`IndexError`). -/
def pyIndex {α : Type} (xs : List α) (i : Int) : Option Nat :=
  let n : Int := xs.length
  let j := if i < 0 then i + n else i
  if 0 ≤ j ∧ j < n then some j.toNat else none

/-- Python slice-endpoint normalisation for a sequence of length `n`. -/
def pySliceBound (n : Nat) (deflt : Nat) : Option Int → Nat
  | none => deflt
  | some i =>
      let j := if i < 0 then i + (n : Int) else i
      if j < 0 then 0 else if j > (n : Int) then n else j.toNat

/-- Python slice `xs[s:e]` (half-open, negative indices, omitted endpoints). -/
def pySlice {α : Type} (xs : List α) (s e : Option Int) : List α :=
  let lo := pySliceBound xs.length 0 s
  let hi := pySliceBound xs.length xs.length e
  (xs.drop lo).take (hi - lo)

/-! ### PointerResolver — `resolvers/pointer.py` -/

/-- Token decoding of `PointerResolver._decode`: the chained `str.replace`
calls `~0→~`, then `~1→/`, then `~2→$`, then `~3→.`, in that order. -/
def decodeToken (tok : String) : String :=
  strReplace (strReplace (strReplace (strReplace tok "~0" "~") "~1" "/") "~2" "$") "~3" "."

/-- Python `ptr.lstrip("/")`: drop all leading slashes. -/
def lstripSlash (s : String) : String := String.mk (s.toList.dropWhile (· = '/'))

/-- Root-pointer test used throughout `resolvers/pointer.py`:
`ptr in ("", "/", ".")`. -/
def isRootPtr (s : String) : Bool := s = "" || s = "/" || s = "."

/-- Segment split of `PointerResolver`: `ptr.lstrip("/").split("/")`. -/
def splitPtr (s : String) : List String := chSplit '/' (lstripSlash s).toList []

/-- Walk of `PointerResolver._get_pointer`: descend token by token keeping a
parent stack for `..` (popping to the previous container, or to the document
root when the stack is empty).  Scalar indexing raises `TypeError`; missing
keys `KeyError`; bad indices `IndexError` / `ValueError`. -/
def getGo (doc : JValue) : List String → JValue → List JValue → Except PyErr JValue
  | [], cur, _ => .ok cur
  | rawTok :: rest, cur, stack =>
      if rawTok = ".." then
        match stack with
        | p :: stack' => getGo doc rest p stack'
        | [] => getGo doc rest doc []
      else
        let key := decodeToken rawTok
        match cur with
        | .arr xs =>
            match parsePyInt key with
            | .error e => .error e
            | .ok idx =>
                match pyIndex xs idx with
                | some i => getGo doc rest (xs.getD i .null) (cur :: stack)
                | none => .error .indexError
        | .obj fs =>
            match lookupField fs key with
            | some v => getGo doc rest v (cur :: stack)
            | none => .error .keyError
        | _ => .error .typeError

/-- Embeds `PointerResolver._get_pointer`. -/
def getPointer (ptr : String) (doc : JValue) : Except PyErr JValue :=
  if isRootPtr ptr then .ok doc
  else getGo doc (splitPtr ptr) doc []

/-- One regex group `-?\d*` of `PointerResolver._SLICE_RE`. -/
def sliceGroupOk (cs : List Char) : Bool :=
  match cs with
  | '-' :: rest => allDigits rest
  | _ => allDigits cs

/-- Checks that an inner bracket text matches `(-?\d*):(-?\d*)` and returns
the two groups. -/
def splitSliceInner (cs : List Char) : Option (String × String) :=
  match cs.splitOn ':' with
  | [g1, g2] =>
      if sliceGroupOk g1 ∧ sliceGroupOk g2 then some (String.mk g1, String.mk g2)
      else none
  | _ => none

/-- Searches for the last `[` (greedy `(.+)` of `_SLICE_RE`) such that the
bracketed tail matches the slice pattern; `i` counts positions from the end
of `base ++ inner`. -/
def findSliceSplit : List Char → Option (List Char × List Char)
  | [] => none
  | c :: cs =>
      match findSliceSplit cs with
      | some (base, inner) => some (c :: base, inner)
      | none =>
          if c = '[' ∧ cs ≠ [] then
            match splitSliceInner cs with
            | some _ => some ([], cs)
            | none => none
          else none

/-- Match of `_SLICE_RE` against a pointer: `(.+)\[(-?\d*):(-?\d*)]$`,
greedy base, whole-string anchor.  Returns `(base, group1, group2)`. -/
def parseSliceSuffix (ptr : String) : Option (String × String × String) :=
  let cs := ptr.toList
  match cs.getLast? with
  | some ']' =>
      let body := cs.dropLast
      match findSliceSplit body with
      | some ([], _) => none
      | some (base, inner) =>
          match splitSliceInner inner with
          | some (g1, g2) => some (String.mk base, g1, g2)
          | none => none
      | none => none
  | _ => none

/-- Endpoint conversion `int(s) if s else None` of `_maybe_slice` (an
explicit lone `-` matches the regex but fails `int()` with `ValueError`). -/
def sliceEndpoint (g : String) : Except PyErr (Option Int) :=
  if g = "" then .ok none
  else match parsePyInt g with
    | .ok i => .ok (some i)
    | .error e => .error e

/-- Embeds `PointerResolver._maybe_slice`, hence `PointerResolver.get`:
resolve an optional trailing `[start:end]` slice on arrays (non-sequences
raise `TypeError`), otherwise a plain pointer read. -/
def rsGet (ptr : String) (doc : JValue) : Except PyErr JValue :=
  match parseSliceSuffix ptr with
  | some (base, g1, g2) =>
      match getPointer base doc with
      | .error e => .error e
      | .ok seq =>
          match seq with
          | .arr xs =>
              match sliceEndpoint g1 with
              | .error e => .error e
              | .ok s =>
                  match sliceEndpoint g2 with
                  | .error e => .error e
                  | .ok e_ => .ok (.arr (pySlice xs s e_))
          | _ => .error .typeError
  | none => getPointer ptr doc

/-- Dot-segment prepass of `PointerResolver._ensure_parent`: `..` pops the
previously collected segment (if any). -/
def popDots : List String → List String → List String
  | [], acc => acc.reverse
  | rawTok :: rest, acc =>
      if rawTok = ".." then popDots rest (acc.drop 1)
      else popDots rest (rawTok :: acc)

/-- Python substring test `token in cur` for a string `cur`. -/
def isSubstr (needle hay : String) : Bool :=
  (hay.toList.tails).any (fun t => needle.toList.isPrefixOf t)

/-- Leaf assignment of `PointerResolver.set` after `_ensure_parent`:
`-` appends to a list parent (`TypeError` otherwise); a numeric leaf on a
list auto-grows with `None` padding; a mapping parent gets a keyed write;
scalar parents raise `TypeError`. -/
def assignLeaf (parent : JValue) (leaf : String) (value : JValue) :
    Except PyErr JValue :=
  if leaf = "-" then
    match parent with
    | .arr xs => .ok (.arr (xs ++ [value]))
    | _ => .error .typeError
  else
    match parent with
    | .arr xs =>
        match parsePyInt leaf with
        | .error e => .error e
        | .ok idx =>
            if (xs.length : Int) ≤ idx then
              .ok (.arr (xs ++ List.replicate (idx.toNat - xs.length) .null ++ [value]))
            else
              match pyIndex xs idx with
              | some i => .ok (.arr (xs.set i value))
              | none => .error .indexError
    | .obj fs => .ok (.obj (setField fs leaf value))
    | _ => .error .typeError

/-- Leaf removal of `PointerResolver.delete`: `del parent[int(leaf)]` on a
list, `del parent[leaf]` on a mapping, `TypeError` on scalars. -/
def deleteLeaf (parent : JValue) (leaf : String) : Except PyErr JValue :=
  match parent with
  | .arr xs =>
      match parsePyInt leaf with
      | .error e => .error e
      | .ok idx =>
          match pyIndex xs idx with
          | some i => .ok (.arr (xs.eraseIdx i))
          | none => .error .indexError
  | .obj fs =>
      match delField fs leaf with
      | some fs' => .ok (.obj fs')
      | none => .error .keyError
  | _ => .error .typeError

/-- Functional translation of the `_ensure_parent` walk followed by a leaf
operation `op`: the Python code returns an in-tree reference to the parent
container and mutates it; here the tree is rebuilt along the path.  With
`create` set, missing mapping keys are filled with `{}` and short lists are
grown with `{}` elements, exactly as in the source. -/
def ensureGo (create : Bool) (op : JValue → String → Except PyErr JValue) :
    List String → JValue → Except PyErr JValue
  | [], cur => op cur ""
  | [leafRaw], cur => op cur (decodeToken leafRaw)
  | rawTok :: rest, cur =>
      let token := decodeToken rawTok
      match cur with
      | .arr xs =>
          match parsePyInt token with
          | .error e => .error e
          | .ok idx =>
              if (xs.length : Int) ≤ idx then
                if create then
                  let grown := xs ++ List.replicate (idx.toNat + 1 - xs.length) (.obj [])
                  match ensureGo create op rest (.obj []) with
                  | .error e => .error e
                  | .ok sub => .ok (.arr (grown.set idx.toNat sub))
                else .error .indexError
              else
                match pyIndex xs idx with
                | some i =>
                    match ensureGo create op rest (xs.getD i .null) with
                    | .error e => .error e
                    | .ok sub => .ok (.arr (xs.set i sub))
                | none => .error .indexError
      | .obj fs =>
          match lookupField fs token with
          | some sub =>
              match ensureGo create op rest sub with
              | .error e => .error e
              | .ok sub' => .ok (.obj (setField fs token sub'))
          | none =>
              if create then
                match ensureGo create op rest (.obj []) with
                | .error e => .error e
                | .ok sub' => .ok (.obj (fs ++ [(token, sub')]))
              else .error .keyError
      | .str s =>
          -- Python `token not in cur` is a substring probe on strings; every
          -- continuation (`cur[token]` or `cur[token] = {}`) raises TypeError,
          -- except the no-create missing branch which raises KeyError.
          if isSubstr token s then .error .typeError
          else if create then .error .typeError
          else .error .keyError
      | _ => .error .typeError

/-- Embeds `PointerResolver.set`: root paths replace the whole document;
otherwise `_ensure_parent(create=True)` then the leaf write. -/
def rsSet (ptr : String) (data value : JValue) : Except PyErr JValue :=
  if isRootPtr ptr then .ok value
  else
    let parts := popDots (splitPtr ptr) []
    ensureGo true (fun parent leaf => assignLeaf parent leaf value) parts data

/-- Embeds `PointerResolver.delete`: `_ensure_parent(create=False)` then the
leaf removal. -/
def rsDelete (ptr : String) (data : JValue) : Except PyErr JValue :=
  let parts := popDots (splitPtr ptr) []
  ensureGo false deleteLeaf parts data

/-- Embeds `ValueResolver.exists` (`core.py`): wrap `get`, suppress
`KeyError` / `IndexError` / `TypeError`; note `ValueError` (bad `int()`)
is *not* in the tuple and propagates. -/
def rsExists (ptr : String) (data : JValue) : Except PyErr Bool :=
  match rsGet ptr data with
  | .ok _ => .ok true
  | .error .keyError => .ok false
  | .error .indexError => .ok false
  | .error .typeError => .ok false
  | .error e => .error e

/-! ### ExecutionContext and PointerProcessor — `core.py`, `pointer_processor.py` -/

/-- Value-level view of `ExecutionContext` (core.py): the namespaces a
pointer can resolve against.  `metadata`, `temp_read_only` and `temp` are
Python dicts; they are carried as ordered field lists. -/
structure Ctx where
  source : JValue
  dest : JValue
  metadata : List (String × JValue) := []
  tempReadOnly : List (String × JValue) := []
  temp : List (String × JValue) := []
deriving Repr

/-- Embeds `PointerProcessor.resolve` (`src/j_perm/pointer_processor.py`,
the processor present in this tree): `@:` strips the tag and resolves
against `metadata["_real_dest"]` when present, else `ctx.dest`; `_:` strips
the tag and resolves against `ctx.metadata`; every other pointer — the
`&:` / `!:` tags included, unstripped — falls through to `ctx.source`. -/
def procResolve (path : String) (ctx : Ctx) : String × JValue :=
  if strStarts path "@:" then
    let stripped := lstripSlash (strDrop path 2)
    let normalized := if stripped = "" then "/" else "/" ++ stripped
    (normalized, (lookupField ctx.metadata "_real_dest").getD ctx.dest)
  else if strStarts path "_:" then
    let stripped := lstripSlash (strDrop path 2)
    let normalized := if stripped = "" then "/" else "/" ++ stripped
    (normalized, .obj ctx.metadata)
  else
    (path, ctx.source)

/-- Embeds `PointerProcessor.get`: resolve the namespace, then read. -/
def procGet (pointer : String) (ctx : Ctx) : Except PyErr JValue :=
  let (p, root) := procResolve pointer ctx
  rsGet p root

/-- Tag stripping shared by the processor's write paths: `@:` and `_:` are
removed (writes always target `ctx.dest`), other pointers pass through. -/
def procClean (pointer : String) : String :=
  if strStarts pointer "@:" ∨ strStarts pointer "_:" then
    "/" ++ lstripSlash (strDrop pointer 2)
  else pointer

/-- Embeds `PointerProcessor.set`: strip any tag, then
`ctx.engine.resolver.set(clean_path, ctx.dest, value)` with the resolver's
return value discarded.  On a non-root path the resolver mutates
`ctx.dest` in place, so the write lands; on a root path (`""`, `"/"`,
`"."`) `PointerResolver.set` only *returns* `value` without touching
`data`, and since `PointerProcessor.set` drops that return the whole call
is a silent no-op. -/
def procSet (pointer : String) (ctx : Ctx) (value : JValue) : Except PyErr Ctx :=
  let clean := procClean pointer
  if isRootPtr clean then .ok ctx
  else
    match rsSet clean ctx.dest value with
    | .ok dest' => .ok { ctx with dest := dest' }
    | .error e => .error e

/-- Embeds `PointerProcessor.exists`. -/
def procExists (pointer : String) (ctx : Ctx) : Except PyErr Bool :=
  let (p, root) := procResolve pointer ctx
  rsExists p root

/-- Embeds `PointerProcessor.delete`: strip any tag; with `ignore_missing`,
probe existence through the `@:` namespace first and no-op when absent;
then delete from `ctx.dest`. -/
def procDelete (pointer : String) (ctx : Ctx) (ignoreMissing : Bool) :
    Except PyErr Ctx :=
  let clean := procClean pointer
  if ignoreMissing then
    match procExists ("@:" ++ clean) ctx with
    | .error e => .error e
    | .ok false => .ok ctx
    | .ok true =>
        match rsDelete clean ctx.dest with
        | .ok dest' => .ok { ctx with dest := dest' }
        | .error e => .error e
  else
    match rsDelete clean ctx.dest with
    | .ok dest' => .ok { ctx with dest := dest' }
    | .error e => .error e

/-! ### Operation handlers — `handlers/ops.py` -/

/-- Python truthiness on the JSON fragment. -/
def pyTruthy : JValue → Bool
  | .null => false
  | .bool b => b
  | .int n => n != 0
  | .str s => s ≠ ""
  | .arr xs => xs ≠ []
  | .obj fs => fs ≠ []

/-- Embeds the `"-"`-append branch and the plain branch of
`SetHandler.execute` (`handlers/ops.py`).  The step fields arrive already
value-processed, as the handler computes them via `process_value` before
this logic runs.  Two aliasing effects of the source are rendered
functionally for contexts whose metadata carries no `_real_dest` entry
(the main-pipeline case, where the fetched parent lives in `ctx.dest`):
the conversion writes go through `PointerProcessor.set` (`procSet`) and so
are silent no-ops on a root parent path, after which the code appends to
the re-fetched — still unconverted — parent without re-checking its type,
which in Python raises `AttributeError` (`dict`/scalar has no
`append`/`extend`); and the final `parent.append` / `parent.extend`
mutates the fetched object *in place*, so it takes effect at every parent
path including the root, rendered as a direct resolver write of the
appended list at `parent_path` into `ctx.dest`. -/
def setExecute (path : String) (create extendList : Bool) (value : JValue)
    (ctx : Ctx) : Except PyErr Ctx :=
  if strEnds path "/-" then
    let parentPath0 := strDropRight path 2     -- path.rsplit("/", 1)[0]
    let parentPath := if parentPath0 = "" then "/" else parentPath0
    let fetched : Except PyErr (Ctx × JValue) :=
      match procGet ("@:" ++ parentPath) ctx with
      | .ok parent => .ok (ctx, parent)
      | .error e =>
          if create then
            match procSet parentPath ctx (.arr []) with
            | .error e' => .error e'
            | .ok ctx1 =>
                match procGet ("@:" ++ parentPath) ctx1 with
                | .error e' => .error e'
                | .ok parent => .ok (ctx1, parent)
          else .error e
    match fetched with
    | .error e => .error e
    | .ok (ctx1, parent) =>
        let listed : Except PyErr (Ctx × List JValue) :=
          match parent with
          | .arr xs => .ok (ctx1, xs)
          | other =>
              if create then
                let converted := if other = .obj [] then .arr [] else .arr [other]
                match procSet parentPath ctx1 converted with
                | .error e' => .error e'
                | .ok ctx2 =>
                    match procGet ("@:" ++ parentPath) ctx2 with
                    | .error e' => .error e'
                    | .ok (.arr xs) => .ok (ctx2, xs)
                    | .ok _ => .error .attributeError
              else .error .typeError
        match listed with
        | .error e => .error e
        | .ok (ctx2, xs) =>
            let appended :=
              match value, extendList with
              | .arr vs, true => xs ++ vs
              | v, _ => xs ++ [v]
            match rsSet parentPath ctx2.dest (.arr appended) with
            | .ok dest' => .ok { ctx2 with dest := dest' }
            | .error e => .error e
  else
    procSet path ctx value

/-- Semantics of one `apply_to_context(body, ctx)` call as seen by the loop
and try handlers: from the dest it is given, the body produces a final dest
(partial effects persist on failure) and optionally a raised exception. -/
def BodyFn : Type := JValue → JValue × Option PyExc

/-- Embeds the `for elem in arr` loop body of `ForeachHandler.execute`:
run the body on each element in turn, stopping at the first raised
exception. -/
def foreachLoop (body : JValue → BodyFn) : List JValue → JValue → JValue × Option PyExc
  | [], dest => (dest, none)
  | e :: es, dest =>
      match body e dest with
      | (d', none) => foreachLoop body es d'
      | (d', some exc) => (d', some exc)

/-- Embeds `ForeachHandler.execute` from the point the `in` pointer has been
resolved to `arrVal` (the ``in``/``default`` resolution precedes this logic
and is orthogonal to the claims).  Mirrors the source: `skip_empty`
short-circuit, dict→item-pairs conversion, `max_items` guard, snapshot of
`ctx.dest`, then the loop wrapped in `except Exception` which rolls `dest`
back to the snapshot and re-raises.  `BreakSignal` / `ContinueSignal` are
`Exception` subclasses, so that clause catches them as well. -/
def foreachExecute (maxItems : Nat) (arrVal : JValue) (skipEmpty : Bool)
    (body : JValue → BodyFn) (dest : JValue) : JValue × Option PyExc :=
  if ¬ pyTruthy arrVal ∧ skipEmpty then (dest, none)
  else
    let items? : Except PyErr (List JValue) :=
      match arrVal with
      | .arr xs => .ok xs
      | .obj fs => .ok (fs.map fun kv => .arr [.str kv.1, kv.2])
      | _ => .error .typeError        -- iterating a scalar raises TypeError
    match items? with
    | .error e => (dest, some (.err e))
    | .ok items =>
        if maxItems < items.length then (dest, some (.err .valueError))
        else
          match foreachLoop body items dest with
          | (d, none) => (d, none)
          | (_, some exc) => (dest, some exc)

/-- Inner loop of `WhileHandler.execute`: `iteration` guard against
`max_iterations` (a `RuntimeError` raised inside the protected region),
condition evaluation unless `do_while` skips the first check, then the
body; `fuel` is `max_iterations + 1 - iteration`, enough for every reachable
iteration. -/
def whileGo (maxIter : Nat) (cond : JValue → Except PyExc Bool) (body : BodyFn) :
    Nat → Nat → Bool → JValue → JValue × Option PyExc
  | 0, _, _, dest => (dest, some (.err .runtimeError))
  | fuel + 1, iteration, doWhile, dest =>
      if maxIter ≤ iteration then (dest, some (.err .runtimeError))
      else
        let run (d : JValue) : JValue × Option PyExc :=
          match body d with
          | (d', none) => whileGo maxIter cond body fuel (iteration + 1) false d'
          | (d', some exc) => (d', some exc)
        if doWhile then run dest
        else
          match cond dest with
          | .error exc => (dest, some exc)
          | .ok false => (dest, none)
          | .ok true => run dest

/-- Embeds `WhileHandler.execute`: snapshot `ctx.dest`, run the loop, and on
any exception — the control-flow signals included, since they subclass
`Exception` — restore the snapshot and re-raise.  The condition is the
`cond`/`path` evaluation abstracted to a dest-indexed boolean that may
itself raise. -/
def whileExecute (maxIter : Nat) (cond : JValue → Except PyExc Bool)
    (body : BodyFn) (doWhile : Bool) (dest : JValue) : JValue × Option PyExc :=
  match whileGo maxIter cond body (maxIter + 1) 0 doWhile dest with
  | (d, none) => (d, none)
  | (_, some exc) => (dest, some exc)

/-- Embeds `TryHandler.execute` (`handlers/ops.py`): run `do`; on any
exception — `except Exception` also catches the control-flow signals —
either run the `except` block (which observes the caught exception through
the error-info metadata, passed here as its first argument) and then
`finally`, or, with no `except` block, run `finally` ignoring its errors
and re-raise.  An exception raised inside an `except` block propagates and
the trailing `finally` block is skipped (the source reaches it only on the
non-raising paths). -/
def tryExecute (doB : Option BodyFn)
    (excB : Option (PyExc → BodyFn)) (finB : Option BodyFn)
    (dest : JValue) : JValue × Option PyExc :=
  let runFin (d : JValue) : JValue × Option PyExc :=
    match finB with
    | some f => f d
    | none => (d, none)
  match doB with
  | none => (dest, some (.err .valueError))  -- "try operation requires 'do'"
  | some doFn =>
      match doFn dest with
      | (d1, none) => runFin d1
      | (d1, some exc) =>
          match excB with
          | some excFn =>
              match excFn exc d1 with
              | (d2, some exc2) => (d2, some exc2)
              | (d2, none) => runFin d2
          | none =>
              match finB with
              | some f => ((f d1).1, some exc)
              | none => (d1, some exc)

/-! ### Value-pipeline stabilisation — `Engine.process_value` (`core.py`) -/

/-- Outcome of one `value_pipeline.run([current], value_ctx)` call as
observed by `Engine.process_value`: a normal return leaving `value_ctx.dest`,
a `PipelineSignal` escape (the `RawValueSignal.handle` hook has set
`value_ctx.dest` to the signal payload before re-raising), or any other
exception propagating out. -/
inductive PipeOutcome where
  | next (v : JValue)
  | raw (v : JValue)
  | err (e : PyExc)
deriving DecidableEq, Repr

/-- Result of `Engine.process_value`: a returned value, a propagated
exception, or the `RecursionError("value_max_depth exceeded")` of the
exhausted loop. -/
inductive PVResult where
  | done (v : JValue)
  | fail (e : PyExc)
  | depthErr
deriving DecidableEq, Repr

/-- Embeds the `for _ in range(self.value_max_depth)` loop of
`Engine.process_value`: run the pipeline on the current value; a
`PipelineSignal` escape takes `value_ctx.dest` and breaks; an unchanged
result breaks; otherwise iterate, and an exhausted range raises
`RecursionError`.  `step` is the engine's value pipeline on the copied
child context (which is rebuilt identically at every iteration, so one
deterministic function is its faithful image). -/
def processValueLoop (step : JValue → PipeOutcome) : Nat → JValue → PVResult
  | 0, _ => .depthErr
  | fuel + 1, cur =>
      match step cur with
      | .raw v => .done v
      | .err e => .fail e
      | .next v => if v = cur then .done cur else processValueLoop step fuel v

/-- Embeds `Engine.process_value` with `_unescape=True`: the stabilisation
loop followed by every registered `UnescapeRule` in priority order. -/
def processValue (step : JValue → PipeOutcome) (rules : List (JValue → JValue))
    (fuel : Nat) (v : JValue) : PVResult :=
  match processValueLoop step fuel v with
  | .done r => .done (rules.foldl (fun acc rule => rule acc) r)
  | other => other

/-! ### Template handler — `handlers/template.py` -/

/-- String part of `template_unescape`: `$${` → `${` then `$$` → `$` via
chained left-to-right `str.replace`. -/
def strUnescape (s : String) : String :=
  strReplace (strReplace s "$$\x7b" "$\x7b") "$$" "$"

mutual

/-- Embeds `template_unescape` (`handlers/template.py`): recursively strip
the template escape layer from strings, list elements, and mapping keys and
values; other values pass through. -/
def templateUnescape : JValue → JValue
  | .str s => .str (strUnescape s)
  | .arr xs => .arr (templateUnescapeList xs)
  | .obj fs => .obj (templateUnescapeFields fs)
  | v => v

/-- List recursion of `template_unescape`. -/
def templateUnescapeList : List JValue → List JValue
  | [] => []
  | x :: xs => templateUnescape x :: templateUnescapeList xs

/-- Mapping recursion of `template_unescape` (string keys are unescaped
too). -/
def templateUnescapeFields : List (String × JValue) → List (String × JValue)
  | [] => []
  | (k, v) :: fs => (strUnescape k, templateUnescape v) :: templateUnescapeFields fs

end

/-- Indexed substring search: first position `≥ i` of `pat` (Python
`s.find(pat, i)`). -/
def findIdx (pat : List Char) : List Char → Nat → Option Nat
  | [], j => if pat = [] then some j else none
  | c :: rest, j =>
      if pat.isPrefixOf (c :: rest) then some j else findIdx pat rest (j + 1)

/-- Python `s.find(pat, i)` returning an absolute index. -/
def findFrom (cs pat : List Char) (i : Nat) : Option Nat :=
  (findIdx pat (cs.drop i) 0).map (· + i)

/-- Loop of `_has_unescaped_placeholder`: find `${` from `i`; a `$`
immediately before it makes it escaped (resume at `j+2`), otherwise report
an unescaped placeholder.  The scan position strictly grows, so
`s.length + 2` fuel covers every string. -/
def hasUPHGo (cs : List Char) : Nat → Nat → Bool
  | _, 0 => false
  | i, fuel + 1 =>
      match findFrom cs ['$', '\x7b'] i with
      | none => false
      | some j =>
          if 0 < j ∧ cs.getD (j - 1) ' ' = '$' then hasUPHGo cs (j + 2) fuel
          else true

/-- Embeds `_has_unescaped_placeholder` (`handlers/template.py`). -/
def hasUnescapedPlaceholder (s : String) : Bool :=
  hasUPHGo s.toList 0 (s.toList.length + 2)

/-- Scan of `TemplSubstHandler._is_single_expression` from position 2:
depth-tracking over `${` / `}` pairs; the depth-0 close must be the final
character. -/
def isSingleGo (cs : List Char) (n : Nat) : Nat → Nat → Nat → Bool
  | _, _, 0 => false
  | i, depth, fuel + 1 =>
      if n ≤ i then false
      else
        if cs.getD (i - 1) ' ' = '$' ∧ cs.getD i ' ' = '\x7b' then
          isSingleGo cs n (i + 1) (depth + 1) fuel
        else if cs.getD i ' ' = '\x7d' then
          if depth = 0 then decide (i = n - 1)
          else isSingleGo cs n (i + 1) (depth - 1) fuel
        else isSingleGo cs n (i + 1) depth fuel

/-- Embeds `TemplSubstHandler._is_single_expression`. -/
def isSingleExpression (s : String) : Bool :=
  strStarts s "$\x7b" && strEnds s "\x7d" &&
    isSingleGo s.toList s.toList.length 2 0 (s.toList.length + 1)

/-- Inner brace scan of `_flat_substitute`: from `j` find the depth-0 `}`
closing the current placeholder (`${` bumps the depth), or none when the
string ends first. -/
def findClose (cs : List Char) (n : Nat) : Nat → Nat → Nat → Option Nat
  | _, _, 0 => none
  | j, depth, fuel + 1 =>
      if n ≤ j then none
      else
        let ch := cs.getD j ' '
        if ch = '\x7b' ∧ cs.getD (j - 1) ' ' = '$' then
          findClose cs n (j + 1) (depth + 1) fuel
        else if ch = '\x7d' then
          if depth = 0 then some j else findClose cs n (j + 1) (depth - 1) fuel
        else findClose cs n (j + 1) depth fuel

/-- JSON string escaping used by `json.dumps` (quote, backslash and the
common control characters; the paths evaluated below render plain text
only). -/
def jsonEscape (s : String) : String :=
  s.toList.foldl
    (fun acc c =>
      if c = '"' then acc ++ "\\\""
      else if c = '\\' then acc ++ "\\\\"
      else if c = '\n' then acc ++ "\\n"
      else if c = '\t' then acc ++ "\\t"
      else if c = '\r' then acc ++ "\\r"
      else acc.push c)
    ""

mutual

/-- Rendering of `json.dumps(val, ensure_ascii=False)` with the default
`", "` / `": "` separators, used by `_flat_substitute` for containers. -/
def jsonDumps : JValue → String
  | .null => "null"
  | .bool true => "true"
  | .bool false => "false"
  | .int n => toString n
  | .str s => "\"" ++ jsonEscape s ++ "\""
  | .arr xs => "[" ++ jsonDumpsList xs ++ "]"
  | .obj fs => "\x7b" ++ jsonDumpsFields fs ++ "\x7d"

/-- Comma-joined array elements for `jsonDumps`. -/
def jsonDumpsList : List JValue → String
  | [] => ""
  | [x] => jsonDumps x
  | x :: xs => jsonDumps x ++ ", " ++ jsonDumpsList xs

/-- Comma-joined object entries for `jsonDumps`. -/
def jsonDumpsFields : List (String × JValue) → String
  | [] => ""
  | [(k, v)] => "\"" ++ jsonEscape k ++ "\": " ++ jsonDumps v
  | (k, v) :: fs => "\"" ++ jsonEscape k ++ "\": " ++ jsonDumps v ++ ", " ++ jsonDumpsFields fs

end

mutual

/-- Python `str(val)` on the embedded values: scalar forms exactly
(`None`, `True`, `False`, decimal integers, the raw string); containers via
their `repr` with single-quoted strings (quote escaping inside such strings
is not exercised by any evaluated path). -/
def pyStr : JValue → String
  | .null => "None"
  | .bool true => "True"
  | .bool false => "False"
  | .int n => toString n
  | .str s => s
  | .arr xs => "[" ++ pyReprList xs ++ "]"
  | .obj fs => "\x7b" ++ pyReprFields fs ++ "\x7d"

/-- Python `repr(val)` (container rendering of `str`). -/
def pyRepr : JValue → String
  | .null => "None"
  | .bool true => "True"
  | .bool false => "False"
  | .int n => toString n
  | .str s => "'" ++ s ++ "'"
  | .arr xs => "[" ++ pyReprList xs ++ "]"
  | .obj fs => "\x7b" ++ pyReprFields fs ++ "\x7d"

/-- Comma-joined list repr. -/
def pyReprList : List JValue → String
  | [] => ""
  | [x] => pyRepr x
  | x :: xs => pyRepr x ++ ", " ++ pyReprList xs

/-- Comma-joined dict repr. -/
def pyReprFields : List (String × JValue) → String
  | [] => ""
  | [(k, v)] => "'" ++ k ++ "': " ++ pyRepr v
  | (k, v) :: fs => "'" ++ k ++ "': " ++ pyRepr v ++ ", " ++ pyReprFields fs

end

/-- Built-in `int` caster (`_BUILTIN_CASTERS["int"]`): Python `int(x)` on
the embedded values (`bool` is an `int` subclass; strings parse decimally;
`None` and containers raise `TypeError`). -/
def pyIntCast : JValue → Except PyErr JValue
  | .int n => .ok (.int n)
  | .bool b => .ok (.int (if b then 1 else 0))
  | .str s => match parsePyInt s with
      | .ok n => .ok (.int n)
      | .error e => .error e
  | _ => .error .typeError

/-- Built-in `bool` caster: `bool(int(x)) if isinstance(x, (int, str)) else
bool(x)`. -/
def pyBoolCast : JValue → Except PyErr JValue
  | .int n => .ok (.bool (n != 0))
  | .bool b => .ok (.bool b)
  | .str s => match parsePyInt s with
      | .ok n => .ok (.bool (n != 0))
      | .error e => .error e
  | v => .ok (.bool (pyTruthy v))

/-- Built-in `str` caster: Python `str(x)`. -/
def pyStrCast (v : JValue) : Except PyErr JValue := .ok (.str (pyStr v))

/-- Built-in `float` caster.  The embedding carries no floating-point
values (claims never exercise this caster), so applying it reports an
unmodelled operation instead of inventing semantics. -/
def pyFloatCast (_ : JValue) : Except PyErr JValue := .error (.unmodelled "float")

/-- The `_BUILTIN_CASTERS` map in its insertion order. -/
def builtinCasters : List (String × (JValue → Except PyErr JValue)) :=
  [("int", pyIntCast), ("float", pyFloatCast), ("bool", pyBoolCast), ("str", pyStrCast)]

/-- Caster dispatch of `_resolve_expr` step 1: the first registered caster
whose `name:` tag starts the expression, together with the remaining
expression text. -/
def findCaster : List (String × (JValue → Except PyErr JValue)) → String →
    Option ((JValue → Except PyErr JValue) × String)
  | [], _ => none
  | (name, fn) :: rest, expr =>
      if strStarts expr (name ++ ":") then some (fn, strDrop expr (name.length + 1))
      else findCaster rest expr

/-- JMESPath document of `_resolve_expr`: `{"source": ..., "dest":
real_dest, "metadata": ...}` with `real_dest` from the metadata when
present. -/
def jmesData (ctx : Ctx) : JValue :=
  .obj [("source", ctx.source),
        ("dest", (lookupField ctx.metadata "_real_dest").getD ctx.dest),
        ("metadata", .obj ctx.metadata)]

/-- Template environment: the caster map of the handler and the external
JMESPath evaluator (`jmespath.search`), which the spec leaves to an outside
collaborator and is therefore a parameter. -/
structure TmplEnv where
  casters : List (String × (JValue → Except PyErr JValue))
  jmes : String → JValue → Except PyErr JValue

/-- Rendering of a resolved placeholder inside `_flat_substitute`:
`json.dumps` for containers, Python `str` otherwise. -/
def renderVal : JValue → String
  | .obj fs => jsonDumps (.obj fs)
  | .arr xs => jsonDumps (.arr xs)
  | v => pyStr v

/-- Scanner loop of `TemplSubstHandler._flat_substitute`, parameterised by
the expression resolver (`_resolve_expr` one fuel level down — the mutual
recursion of the source is broken by indexing it on fuel): `$${` and `$$`
survive verbatim; `${` opens a placeholder closed by the depth-0 `}` (the
enclosed expression is resolved and rendered); an unclosed `${` emits the
`$` and rescans from the `{`.  The scan position grows strictly every
round, so the `sfuel` bound `length + 2` is never the exit taken. -/
def flatGoP (resolver : String → Except PyErr JValue) (cs : List Char) (n : Nat) :
    Nat → Nat → String → Except PyErr String
  | 0, _, _ => .error (.unmodelled "scan fuel")
  | sfuel + 1, i, out =>
      if n ≤ i then .ok out
      else
        if ['$', '$', '\x7b'].isPrefixOf (cs.drop i) then
          flatGoP resolver cs n sfuel (i + 3) (out ++ "$$\x7b")
        else if ['$', '$'].isPrefixOf (cs.drop i) then
          flatGoP resolver cs n sfuel (i + 2) (out ++ "$$")
        else if ['$', '\x7b'].isPrefixOf (cs.drop i) then
          match findClose cs n (i + 2) 0 (n + 1) with
          | some j =>
              let expr := String.mk ((cs.drop (i + 2)).take (j - (i + 2)))
              match resolver expr with
              | .error e => .error e
              | .ok val => flatGoP resolver cs n sfuel (j + 1) (out ++ renderVal val)
          | none =>
              flatGoP resolver cs n sfuel (i + 1) (out.push (cs.getD i ' '))
        else
          flatGoP resolver cs n sfuel (i + 1) (out.push (cs.getD i ' '))

/-- Entry of `_flat_substitute` for a given resolver. -/
def flatSubstituteP (resolver : String → Except PyErr JValue) (tmpl : String) :
    Except PyErr String :=
  flatGoP resolver tmpl.toList tmpl.toList.length (tmpl.toList.length + 2) 0 ""

/-- Body of `TemplSubstHandler._resolve_expr`: strip the expression, then
dispatch in order — caster tag (recursing through `prev`), JMESPath
(`?`-led, with the query itself flat-substituted), nested template, and the
JSON-Pointer fallback whose failures yield `None`. -/
def resolveExprGo (env : TmplEnv) (ctx : Ctx)
    (prev : String → Except PyErr JValue) (expr0 : String) : Except PyErr JValue :=
  let expr := strTrim expr0
  match findCaster env.casters expr with
  | some (fn, inner) =>
      match prev inner with
      | .error e => .error e
      | .ok value => fn value
  | none =>
      if strStarts expr "?" then
        let queryRaw := strTrimLeft (strDrop expr 1)
        match flatSubstituteP prev queryRaw with
        | .error e => .error e
        | .ok q => env.jmes q (jmesData ctx)
      else if hasUnescapedPlaceholder expr then
        match flatSubstituteP prev expr with
        | .error e => .error e
        | .ok s => .ok (.str s)
      else
        let pointer :=
          if strStarts expr "@:" ∨ strStarts expr "_:" then expr
          else "/" ++ lstripSlash expr
        match procGet pointer ctx with
        | .ok v => .ok v
        | .error _ => .ok .null

/-- Embeds `TemplSubstHandler._resolve_expr`; `fuel` bounds the depth of
the mutual recursion with `_flat_substitute` (each nested expression in the
source is a strictly smaller string, so ample concrete fuel is exact). -/
def resolveExpr (env : TmplEnv) (ctx : Ctx) : Nat → String → Except PyErr JValue
  | 0, _ => .error (.unmodelled "recursion fuel")
  | fuel + 1, expr0 => resolveExprGo env ctx (resolveExpr env ctx fuel) expr0

/-- Embeds `TemplSubstHandler._flat_substitute`. -/
def flatSubstitute (env : TmplEnv) (ctx : Ctx) : Nat → String → Except PyErr String
  | 0, _ => .error (.unmodelled "recursion fuel")
  | fuel + 1, tmpl => flatSubstituteP (resolveExpr env ctx fuel) tmpl

/-- Embeds `TemplSubstHandler.execute` on a string step: a lone `${…}`
expression returns its native-typed result, anything else goes through the
flat substitution (which always renders to a string). -/
def templExecute (env : TmplEnv) (ctx : Ctx) (fuel : Nat) (s : String) :
    Except PyErr JValue :=
  if isSingleExpression s then
    resolveExpr env ctx fuel (strDropRight (strDrop s 2) 1)
  else
    match flatSubstitute env ctx fuel s with
    | .ok out => .ok (.str out)
    | .error e => .error e

/-! ### Special constructs — `handlers/special.py`, `$raw` -/

/-- Handler signature `SpecialFn` of `handlers/special.py`: the whole
construct object and the context produce a value or raise (signals
included). -/
def SpecialFn : Type := JValue → Ctx → Except PyExc JValue

/-- Modelled from the spec: `raw_handler` is imported by `factory.py` from
`handlers/constructs.py` but its definition is absent from this tree; the
spec (§4.C, `$raw` "returns its payload verbatim") and the in-repo
documentation of `handlers/signals.py` ("`raw_handler` raises
`RawValueSignal(node[\"$raw\"])` directly") fix its behaviour: raise the
signal carrying the node's `$raw` payload. -/
def rawHandler : SpecialFn := fun node _ =>
  match node with
  | .obj fs =>
      match lookupField fs "$raw" with
      | some v => .error (.rawSig v)
      | none => .error (.err .keyError)
  | _ => .error (.err .typeError)

/-- Embeds `SpecialResolveHandler.execute`: the first *registered* key
present in the step wins; after a normal return, a `"$raw": true` flag on
the object converts the result into a `RawValueSignal`; with no matching
key the step is returned unchanged. -/
def specialExecute (specials : List (String × SpecialFn)) (step : JValue)
    (ctx : Ctx) : Except PyExc JValue :=
  match step with
  | .obj fs =>
      match specials.find? (fun kv => (lookupField fs kv.1).isSome) with
      | some (_, fn) =>
          match fn step ctx with
          | .error e => .error e
          | .ok result =>
              if lookupField fs "$raw" = some (.bool true) then
                .error (.rawSig result)
              else .ok result
      | none => .ok step
  | _ => .ok step

/-- Value-pipeline step of the default registry restricted to
special-construct objects: `SpecialMatcher` fires when a registered key is
present and `SpecialResolveHandler` runs (a `RawValueSignal` escape becomes
the `raw` outcome after its `handle` hook sets the child dest); values the
matcher rejects are given the identity fallback here — the theorems below
apply this step only to objects whose sole key is a registered special, so
that fallback branch models the registry's low-priority `IdentityHandler`
for scalars and is never evaluated on strings or plain containers. -/
def specialStep (specials : List (String × SpecialFn)) (ctx : Ctx)
    (v : JValue) : PipeOutcome :=
  match v with
  | .obj fs =>
      if specials.any (fun kv => (lookupField fs kv.1).isSome) then
        match specialExecute specials (.obj fs) ctx with
        | .ok r => .next r
        | .error (.rawSig r) => .raw r
        | .error e => .err e
      else .next v
  | v => .next v

/-- Value-pipeline step of the default registry restricted to strings:
`TemplMatcher` fires on strings with an unescaped placeholder and
`TemplSubstHandler` runs; other strings and scalars fall through to the
`IdentityHandler`.  The theorems below apply this step only to strings and
scalars, where `SpecialMatcher` and `ContainerMatcher` (which require
containers) never fire, so this is the full default dispatch on that
domain. -/
def templValueStep (env : TmplEnv) (ctx : Ctx) (fuel : Nat) (v : JValue) :
    PipeOutcome :=
  match v with
  | .str s =>
      if hasUnescapedPlaceholder s then
        match templExecute env ctx fuel s with
        | .ok r => .next r
        | .error e => .err (.err e)
      else .next v
  | v => .next v

/-! ### Recursive container descent — `handlers/container.py` -/

/-- Embeds the mapping branch of `RecursiveDescentHandler.execute`: every
string key is passed through `process_value` (`pvKey`; the source guards
with `isinstance(k, str)`, always true on the embedded objects), a
processed key colliding with one already produced raises `KeyError`,
otherwise the processed value (`pvVal`) is stored under it.  `out` is the
accumulator dict. -/
def recDescendFields (pvKey : String → Except PyExc JValue)
    (pvVal : JValue → Except PyExc JValue) :
    List (String × JValue) → List (JValue × JValue) →
    Except PyExc (List (JValue × JValue))
  | [], out => .ok out.reverse
  | (k, v) :: fs, out =>
      match pvKey k with
      | .error e => .error e
      | .ok newKey =>
          if out.any (fun kv => kv.1 = newKey) then .error (.err .keyError)
          else
            match pvVal v with
            | .error e => .error e
            | .ok newVal => recDescendFields pvKey pvVal fs ((newKey, newVal) :: out)

/-- Embeds `RecursiveDescentHandler.execute` on a mapping step. -/
def recDescendObj (pvKey : String → Except PyExc JValue)
    (pvVal : JValue → Except PyExc JValue) (fs : List (String × JValue)) :
    Except PyExc (List (JValue × JValue)) :=
  recDescendFields pvKey pvVal fs []

/-! ### Operation counter — `Pipeline.run` (`core.py`) -/

/-- Handler execution as seen by the counter logic of `Pipeline.run`: from
the current dest and the shared `_operation_count` (the handler's own
nested pipeline runs on contexts sharing the metadata dict may increment
it further), a new dest and counter, or a raised exception. -/
def HandlerC : Type := JValue → Nat → Except PyExc (JValue × Nat)

/-- Embeds the `for handler in handlers` loop of `Pipeline.run`: before
each dispatch `ctx.metadata['_operation_count']` is incremented and
compared against the engine's `max_operations`; overrun raises
`RuntimeError` before the handler executes. -/
def runHandlersCounted (maxOps : Nat) :
    List HandlerC → JValue → Nat → Except PyExc (JValue × Nat)
  | [], dest, count => .ok (dest, count)
  | h :: rest, dest, count =>
      let c1 := count + 1
      if maxOps < c1 then .error (.err .runtimeError)
      else
        match h dest c1 with
        | .ok (d', c') => runHandlersCounted maxOps rest d' c'
        | .error exc => .error exc

/-- Counter-carrying pipeline outcome: the final value of the *child*
context's `_operation_count` rides along. -/
inductive PipeOutcomeC where
  | next (v : JValue) (c : Nat)
  | raw (v : JValue) (c : Nat)
  | err (e : PyExc)

/-- Counter behaviour of the `Engine.process_value` loop: every iteration
rebuilds the child metadata as `{**ctx.metadata, '_real_dest': ...}` — a
fresh dict — so the value pipeline increments that copy starting from the
outer count, and the outer `ctx.metadata` is never written back.  The
third result component observes the total number of value-pipeline handler
executions (the per-iteration excess of the child counter over the outer
count); it is a measurement, not program state. -/
def pvLoopCounted (stepC : JValue → Nat → PipeOutcomeC) (outer : Nat) :
    Nat → JValue → Nat → PVResult × Nat
  | 0, _, g => (.depthErr, g)
  | fuel + 1, cur, g =>
      match stepC cur outer with
      | .raw v c => (.done v, g + (c - outer))
      | .err e => (.fail e, g)
      | .next v c =>
          if v = cur then (.done cur, g + (c - outer))
          else pvLoopCounted stepC outer fuel v (g + (c - outer))

/-- Embeds `Engine.process_value`'s effect on the outer context's
operation counter: the loop runs on per-iteration metadata copies and the
function returns with `ctx.metadata['_operation_count']` exactly as it
found it (second component), however many handler executions (third
component) the value pipeline performed. -/
def processValueCounted (stepC : JValue → Nat → PipeOutcomeC) (outer : Nat)
    (fuel : Nat) (v : JValue) : PVResult × Nat × Nat :=
  let (r, g) := pvLoopCounted stepC outer fuel v 0
  (r, outer, g)

/-! ### Object-store model of `Engine.apply` — `core.py`

Mutation and aliasing claims need object identity, which pure value trees
cannot express.  Python objects become addressed store nodes: containers
hold child addresses, scalars are immutable leaves (Python never mutates
`int` / `str` / `bool` / `None` in place).  `copy.deepcopy` and
`_tuples_to_lists` both rebuild containers at fresh addresses and share
scalar leaves; in-place mutation by handlers is an arbitrary store
transformation constrained only by the frame conditions stated with the
theorem. -/

/-- Immutable Python scalar. -/
inductive PScalar where
  | null
  | bool (b : Bool)
  | int (n : Int)
  | str (s : String)
deriving DecidableEq, Repr

/-- Store node: a scalar, or a container holding child addresses. -/
inductive PNode where
  | scalar (s : PScalar)
  | arr (elems : List Nat)
  | obj (fs : List (String × Nat))
deriving DecidableEq, Repr

/-- Child addresses of a node. -/
def PNode.children : PNode → List Nat
  | .scalar _ => []
  | .arr es => es
  | .obj fs => fs.map Prod.snd

/-- Container test (the mutable nodes). -/
def PNode.isContainer : PNode → Bool
  | .scalar _ => false
  | _ => true

/-- Object store: total node map plus the allocation frontier. -/
structure Heap where
  store : Nat → PNode
  next : Nat

/-- Allocation: place a node at the frontier and advance it. -/
def Heap.push (h : Heap) (n : PNode) : Heap :=
  ⟨Function.update h.store h.next n, h.next + 1⟩

/-- Well-formed store: every child address lies strictly below its parent
(fresh nodes are always allocated after their children, so post-order
allocation preserves this). -/
def Heap.WF (h : Heap) : Prop := ∀ a, ∀ c ∈ (h.store a).children, c < a

/-- Reachability through child pointers. -/
inductive Reaches (h : Heap) : Nat → Nat → Prop where
  | refl (a : Nat) : Reaches h a a
  | step {a b c : Nat} : b ∈ (h.store a).children → Reaches h b c → Reaches h a c

mutual

/-- Fuelled value observation of an address (the pure `JValue` a Python
caller would read off the object graph). -/
def getValueF (h : Heap) : Nat → Nat → JValue
  | 0, _ => .null
  | fuel + 1, a =>
      match h.store a with
      | .scalar .null => .null
      | .scalar (.bool b) => .bool b
      | .scalar (.int n) => .int n
      | .scalar (.str s) => .str s
      | .arr es => .arr (getValueListF h fuel es)
      | .obj fs => .obj (getValueFieldsF h fuel fs)
termination_by fuel _ => (fuel, 0)

/-- List observation for `getValueF`. -/
def getValueListF (h : Heap) : Nat → List Nat → List JValue
  | _, [] => []
  | fuel, a :: as_ => getValueF h fuel a :: getValueListF h fuel as_
termination_by fuel as_ => (fuel, as_.length + 1)

/-- Field observation for `getValueF`. -/
def getValueFieldsF (h : Heap) : Nat → List (String × Nat) → List (String × JValue)
  | _, [] => []
  | fuel, (k, a) :: fs => (k, getValueF h fuel a) :: getValueFieldsF h fuel fs
termination_by fuel fs => (fuel, fs.length + 1)

end

/-- Canonical observation: under `Heap.WF`, fuel `a + 1` reaches every
descendant of `a`. -/
def getValue (h : Heap) (a : Nat) : JValue := getValueF h (a + 1) a

mutual

/-- Container-rebuilding copy, the common functional content of
`copy.deepcopy` (entry and exit copies of `Engine.apply`) and of
`_tuples_to_lists` on tuple-free input (`core.py`): scalars are shared —
Python's `deepcopy` returns immutables unchanged and `_tuples_to_lists`
returns non-container objects as-is — while containers are rebuilt at
fresh addresses, children first. -/
def copyTree : Nat → Heap → Nat → Option (Heap × Nat)
  | 0, _, _ => none
  | fuel + 1, h, a =>
      match h.store a with
      | .scalar _ => some (h, a)
      | .arr es =>
          match copyListH fuel h es with
          | some (h1, es') => some (h1.push (.arr es'), h1.next)
          | none => none
      | .obj fs =>
          match copyListH fuel h (fs.map Prod.snd) with
          | some (h1, vs') =>
              some (h1.push (.obj ((fs.map Prod.fst).zip vs')), h1.next)
          | none => none
termination_by fuel _ _ => (fuel, 0)

/-- Left-to-right child copy threading the store. -/
def copyListH : Nat → Heap → List Nat → Option (Heap × List Nat)
  | _, h, [] => some (h, [])
  | fuel, h, a :: as_ =>
      match copyTree fuel h a with
      | some (h1, r) =>
          match copyListH fuel h1 as_ with
          | some (h2, rs) => some (h2, r :: rs)
          | none => none
      | none => none
termination_by fuel _ as_ => (fuel, as_.length + 1)

end

/-- Embeds `Engine.apply` at store level: normalise the source
(`_tuples_to_lists` rebuilds every container), deep-copy the caller's dest
into the context, run the main pipeline (`run` — an arbitrary store
transformation returning the final dest address), and return a deep copy
of the final dest. -/
def applyStore (run : Heap → Nat → Nat → Heap × Nat) (h : Heap)
    (srcA destA : Nat) : Option (Heap × Nat) :=
  match copyTree (srcA + 1) h srcA with
  | none => none
  | some (h1, srcA') =>
      match copyTree (destA + 1) h1 destA with
      | none => none
      | some (h2, destA') =>
          let (h3, finalA) := run h2 srcA' destA'
          match copyTree (finalA + 1) h3 finalA with
          | none => none
          | some (h4, resA) => some (h4, resA)

/-- In a well-formed store, reachability only descends. -/
theorem reaches_le {h : Heap} (hwf : h.WF) {a b : Nat} (hr : Reaches h a b) :
    b ≤ a := by
  induction hr with
  | refl => exact le_refl _
  | @step x y z hmem _ ih => exact le_trans ih (le_of_lt (hwf x y hmem))

/-- Reachability transfers to a store agreeing on every address up to the
root (in a well-formed base store). -/
theorem reaches_of_agree {h h' : Heap} {bound : Nat} (hwf : h.WF)
    (hag : ∀ c, c ≤ bound → h'.store c = h.store c) :
    ∀ {x b : Nat}, x ≤ bound → Reaches h' x b → Reaches h x b := by
  suffices H : ∀ x b, Reaches h' x b → x ≤ bound → Reaches h x b by
    intro x b hx hr
    exact H x b hr hx
  intro x b hr
  induction hr with
  | refl => exact fun _ => .refl _
  | @step x' y' z' hmem _ ih =>
      intro hx
      rw [hag x' hx] at hmem
      exact .step hmem (ih (le_trans (le_of_lt (hwf x' y' hmem)) hx))

/-- Fuel irrelevance of the observation: any fuel above the address reads
the same value in a well-formed store. -/
theorem getValueF_congr (h : Heap) (hwf : h.WF) :
    ∀ a f₁ f₂, a < f₁ → a < f₂ → getValueF h f₁ a = getValueF h f₂ a := by
  intro a
  induction a using Nat.strong_induction_on with
  | _ a IH =>
    intro f₁ f₂ h₁ h₂
    cases f₁ with
    | zero => omega
    | succ k₁ =>
      cases f₂ with
      | zero => omega
      | succ k₂ =>
        have hList : ∀ es : List Nat, (∀ c ∈ es, c < a) →
            getValueListF h k₁ es = getValueListF h k₂ es := by
          intro es
          induction es with
          | nil => intro _; simp [getValueListF]
          | cons c cs ihc =>
              intro hcs
              have hc := hcs c (List.mem_cons_self _ _)
              simp only [getValueListF]
              rw [IH c hc k₁ k₂ (by omega) (by omega),
                ihc (fun x hx => hcs x (List.mem_cons_of_mem _ hx))]
        have hFields : ∀ fs : List (String × Nat), (∀ kv ∈ fs, kv.2 < a) →
            getValueFieldsF h k₁ fs = getValueFieldsF h k₂ fs := by
          intro fs
          induction fs with
          | nil => intro _; simp [getValueFieldsF]
          | cons kv fs' ihf =>
              intro hfs
              have hc := hfs kv (List.mem_cons_self _ _)
              obtain ⟨k, c⟩ := kv
              simp only [getValueFieldsF]
              rw [IH c hc k₁ k₂ (by omega) (by omega),
                ihf (fun x hx => hfs x (List.mem_cons_of_mem _ hx))]
        have hch := hwf a
        rw [show getValueF h (k₁ + 1) a =
              (match h.store a with
                | .scalar .null => JValue.null
                | .scalar (.bool b) => JValue.bool b
                | .scalar (.int n) => JValue.int n
                | .scalar (.str s) => JValue.str s
                | .arr es => JValue.arr (getValueListF h k₁ es)
                | .obj fs => JValue.obj (getValueFieldsF h k₁ fs)) from by
            simp [getValueF],
          show getValueF h (k₂ + 1) a =
              (match h.store a with
                | .scalar .null => JValue.null
                | .scalar (.bool b) => JValue.bool b
                | .scalar (.int n) => JValue.int n
                | .scalar (.str s) => JValue.str s
                | .arr es => JValue.arr (getValueListF h k₂ es)
                | .obj fs => JValue.obj (getValueFieldsF h k₂ fs)) from by
            simp [getValueF]]
        cases hst : h.store a with
        | scalar s => cases s <;> rfl
        | arr es =>
            show JValue.arr (getValueListF h k₁ es) = JValue.arr (getValueListF h k₂ es)
            rw [hList es (fun c hc => by
              have := hch c; rw [hst] at this; exact this (by simpa [PNode.children] using hc))]
        | obj fs =>
            show JValue.obj (getValueFieldsF h k₁ fs) = JValue.obj (getValueFieldsF h k₂ fs)
            rw [hFields fs (fun kv hkv => by
              have := hch kv.2; rw [hst] at this
              exact this (by
                simp only [PNode.children, List.mem_map]
                exact ⟨kv, hkv, rfl⟩))]

/-- Observation depends only on the stores at reachable addresses. -/
theorem getValue_congr_reach {h h' : Heap} (hwf : h.WF) (hwf' : h'.WF) :
    ∀ root, (∀ b, Reaches h root b → h'.store b = h.store b) →
    getValue h' root = getValue h root := by
  intro root
  induction root using Nat.strong_induction_on with
  | _ root IH =>
    intro hag
    have hroot := hag root (.refl _)
    have hchild : ∀ c ∈ (h.store root).children, getValue h' c = getValue h c := by
      intro c hc
      exact IH c (hwf root c hc) (fun b hb => hag b (.step hc hb))
    have hlt : ∀ c ∈ (h.store root).children, c < root := hwf root
    have hList : ∀ es : List Nat, (∀ c ∈ es, c < root ∧ getValue h' c = getValue h c) →
        getValueListF h' root es = getValueListF h root es := by
      intro es
      induction es with
      | nil => intro _; simp [getValueListF]
      | cons c cs ihc =>
          intro hcs
          obtain ⟨hclt, hceq⟩ := hcs c (List.mem_cons_self _ _)
          simp only [getValueListF]
          rw [getValueF_congr h' hwf' c root (c + 1) hclt (Nat.lt_succ_self c),
            getValueF_congr h hwf c root (c + 1) hclt (Nat.lt_succ_self c)]
          rw [show getValueF h' (c + 1) c = getValueF h (c + 1) c from hceq,
            ihc (fun x hx => hcs x (List.mem_cons_of_mem _ hx))]
    have hFields : ∀ fs : List (String × Nat),
        (∀ kv ∈ fs, kv.2 < root ∧ getValue h' kv.2 = getValue h kv.2) →
        getValueFieldsF h' root fs = getValueFieldsF h root fs := by
      intro fs
      induction fs with
      | nil => intro _; simp [getValueFieldsF]
      | cons kv fs' ihf =>
          intro hfs
          obtain ⟨hclt, hceq⟩ := hfs kv (List.mem_cons_self _ _)
          obtain ⟨k, c⟩ := kv
          simp only [getValueFieldsF]
          rw [getValueF_congr h' hwf' c root (c + 1) hclt (Nat.lt_succ_self c),
            getValueF_congr h hwf c root (c + 1) hclt (Nat.lt_succ_self c)]
          rw [show getValueF h' (c + 1) c = getValueF h (c + 1) c from hceq,
            ihf (fun x hx => hfs x (List.mem_cons_of_mem _ hx))]
    show getValueF h' (root + 1) root = getValueF h (root + 1) root
    rw [show getValueF h' (root + 1) root =
          (match h'.store root with
            | .scalar .null => JValue.null
            | .scalar (.bool b) => JValue.bool b
            | .scalar (.int n) => JValue.int n
            | .scalar (.str s) => JValue.str s
            | .arr es => JValue.arr (getValueListF h' root es)
            | .obj fs => JValue.obj (getValueFieldsF h' root fs)) from by
        simp [getValueF],
      show getValueF h (root + 1) root =
          (match h.store root with
            | .scalar .null => JValue.null
            | .scalar (.bool b) => JValue.bool b
            | .scalar (.int n) => JValue.int n
            | .scalar (.str s) => JValue.str s
            | .arr es => JValue.arr (getValueListF h root es)
            | .obj fs => JValue.obj (getValueFieldsF h root fs)) from by
        simp [getValueF],
      hroot]
    cases hst : h.store root with
    | scalar s => cases s <;> rfl
    | arr es =>
        show JValue.arr (getValueListF h' root es) = JValue.arr (getValueListF h root es)
        rw [hList es (fun c hc => by
          have hmem : c ∈ (h.store root).children := by
            rw [hst]; simpa [PNode.children] using hc
          exact ⟨hlt c hmem, hchild c hmem⟩)]
    | obj fs =>
        show JValue.obj (getValueFieldsF h' root fs) = JValue.obj (getValueFieldsF h root fs)
        rw [hFields fs (fun kv hkv => by
          have hmem : kv.2 ∈ (h.store root).children := by
            rw [hst]; simp only [PNode.children, List.mem_map]
            exact ⟨kv, hkv, rfl⟩
          exact ⟨hlt kv.2 hmem, hchild kv.2 hmem⟩)]

/-- List observation as a map of the canonical observation. -/
theorem getValueListF_map (h : Heap) (hwf : h.WF) (fuel : Nat) :
    ∀ rs : List Nat, (∀ x ∈ rs, x < fuel) →
    getValueListF h fuel rs = rs.map (getValue h) := by
  intro rs
  induction rs with
  | nil => intro _; simp [getValueListF]
  | cons r rs' ih =>
      intro hb
      simp only [getValueListF, List.map]
      rw [getValueF_congr h hwf r fuel (r + 1) (hb r (List.mem_cons_self _ _))
          (Nat.lt_succ_self r),
        ih (fun x hx => hb x (List.mem_cons_of_mem _ hx))]
      rfl

/-- Field observation as a map of the canonical observation. -/
theorem getValueFieldsF_map (h : Heap) (hwf : h.WF) (fuel : Nat) :
    ∀ fs : List (String × Nat), (∀ kv ∈ fs, kv.2 < fuel) →
    getValueFieldsF h fuel fs = fs.map (fun kv => (kv.1, getValue h kv.2)) := by
  intro fs
  induction fs with
  | nil => intro _; simp [getValueFieldsF]
  | cons kv fs' ih =>
      intro hb
      obtain ⟨k, c⟩ := kv
      simp only [getValueFieldsF, List.map]
      rw [getValueF_congr h hwf c fuel (c + 1) (hb (k, c) (List.mem_cons_self _ _))
          (Nat.lt_succ_self c),
        ih (fun x hx => hb x (List.mem_cons_of_mem _ hx))]
      rfl

/-- Reachability out of a childless node stays put. -/
theorem reaches_childless {h : Heap} {a b : Nat}
    (hch : (h.store a).children = []) (hr : Reaches h a b) : b = a := by
  cases hr with
  | refl => rfl
  | step hmem _ => rw [hch] at hmem; cases hmem

/-- Conclusions of copy adequacy at one address: allocation only grows, old
entries survive, the result is in bounds, well-formedness persists, the
observed value is preserved, and every container reachable from the copy is
freshly allocated. -/
def CopyOk (h h' : Heap) (a r : Nat) : Prop :=
  h.next ≤ h'.next ∧
  (∀ b, b < h.next → h'.store b = h.store b) ∧
  r < h'.next ∧ h'.WF ∧
  getValue h' r = getValue h a ∧
  (∀ b, Reaches h' r b → (h'.store b).isContainer = true → h.next ≤ b)

/-- Conclusions of copy adequacy for a child list. -/
def CopyListOk (h h' : Heap) (as_ rs : List Nat) : Prop :=
  h.next ≤ h'.next ∧
  (∀ b, b < h.next → h'.store b = h.store b) ∧
  (∀ r ∈ rs, r < h'.next) ∧ h'.WF ∧
  List.Forall₂ (fun r c => getValue h' r = getValue h c) rs as_ ∧
  (∀ r ∈ rs, ∀ b, Reaches h' r b → (h'.store b).isContainer = true → h.next ≤ b)


/-- Allocation advances the frontier by one. -/
theorem Heap.push_next (h : Heap) (n : PNode) : (h.push n).next = h.next + 1 := rfl

/-- Reading back the allocated node. -/
theorem Heap.push_store_self (h : Heap) (n : PNode) :
    (h.push n).store h.next = n := Function.update_same _ _ _

/-- Allocation leaves every other address untouched. -/
theorem Heap.push_store_ne (h : Heap) (n : PNode) {b : Nat} (hb : b ≠ h.next) :
    (h.push n).store b = h.store b := by
  show Function.update h.store h.next n b = h.store b
  exact Function.update_noteq hb n h.store

/-- Allocating a node whose children are already in bounds keeps the store
well-formed. -/
theorem Heap.push_wf {h : Heap} (hwf : h.WF) {n : PNode}
    (hn : ∀ c ∈ n.children, c < h.next) : (h.push n).WF := by
  intro x c hc
  by_cases hx : x = h.next
  · subst hx
    rw [Heap.push_store_self] at hc
    exact hn c hc
  · rw [Heap.push_store_ne _ _ hx] at hc
    exact hwf x c hc

/-- Allocation does not change observations below the frontier. -/
theorem Heap.push_getValue {h : Heap} (hwf : h.WF) {n : PNode}
    (hn : ∀ c ∈ n.children, c < h.next) {r : Nat} (hr : r < h.next) :
    getValue (h.push n) r = getValue h r := by
  apply getValue_congr_reach hwf (Heap.push_wf hwf hn) r
  intro b hb
  exact Heap.push_store_ne _ _ (by have := reaches_le hwf hb; omega)

/-- Pointwise-equal observations give equal maps. -/
theorem forall2_map_eq {g g' : Nat → JValue} :
    ∀ {rs cs : List Nat}, List.Forall₂ (fun r c => g r = g' c) rs cs →
    rs.map g = cs.map g' := by
  intro rs cs hfa
  induction hfa with
  | nil => rfl
  | cons hrc _ ihf => simp only [List.map]; rw [hrc, ihf]

/-- Pointwise-equal observations transport along a key zip. -/
theorem zip_fields_map_eq {g g' : Nat → JValue} :
    ∀ (fs : List (String × Nat)) (rs : List Nat),
    List.Forall₂ (fun r c => g r = g' c) rs (fs.map Prod.snd) →
    ((fs.map Prod.fst).zip rs).map (fun kv => (kv.1, g kv.2)) =
      fs.map (fun kv => (kv.1, g' kv.2)) := by
  intro fs
  induction fs with
  | nil =>
      intro rs hfa
      cases hfa
      rfl
  | cons kv fs' ih =>
      intro rs hfa
      obtain ⟨k0, c0⟩ := kv
      simp only [List.map] at hfa
      cases hfa with
      | cons h0 ht =>
          rename_i r0 rs'
          simp only [List.map, List.zip_cons_cons]
          rw [h0]
          congr 1
          exact ih rs' ht

/-- Composing a pointwise value relation with an agreement on its right
support. -/
theorem forall2_lift {g2 g1 gh : Nat → JValue} : ∀ {rs cs : List Nat},
    List.Forall₂ (fun r c => g2 r = g1 c) rs cs →
    (∀ c ∈ cs, g1 c = gh c) →
    List.Forall₂ (fun r c => g2 r = gh c) rs cs
  | _, _, .nil, _ => .nil
  | _, _, .cons h0 ht, hlift =>
      .cons (by rw [h0]; exact hlift _ (List.mem_cons_self _ _))
        (forall2_lift ht (fun x hx => hlift x (List.mem_cons_of_mem _ hx)))

/-- Copy adequacy: with fuel above the address, `copyTree` succeeds on a
well-formed store and satisfies `CopyOk` (mutually, `copyListH` satisfies
`CopyListOk`). -/
theorem copyTree_ok : ∀ fuel : Nat,
    (∀ (h : Heap) (a : Nat), h.WF → a < h.next → a < fuel →
      ∃ h' r, copyTree fuel h a = some (h', r) ∧ CopyOk h h' a r) ∧
    (∀ (h : Heap) (as_ : List Nat), h.WF → (∀ c ∈ as_, c < h.next ∧ c < fuel) →
      ∃ h' rs, copyListH fuel h as_ = some (h', rs) ∧ CopyListOk h h' as_ rs) := by
  intro fuel
  induction fuel with
  | zero =>
      constructor
      · intro h a _ _ hfa; omega
      · intro h as_ hwf hb
        cases as_ with
        | nil =>
            refine ⟨h, [], by simp [copyListH], le_refl _, fun _ _ => rfl,
              by simp, hwf, .nil, by simp⟩
        | cons c cs => exact absurd (hb c (List.mem_cons_self _ _)).2 (by omega)
  | succ fuel ih =>
      have treeP : ∀ (h : Heap) (a : Nat), h.WF → a < h.next → a < fuel + 1 →
          ∃ h' r, copyTree (fuel + 1) h a = some (h', r) ∧ CopyOk h h' a r := by
        intro h a hwf ha hafuel
        cases hst : h.store a with
        | scalar s =>
            refine ⟨h, a, by simp [copyTree, hst], le_refl _, fun _ _ => rfl, ha,
              hwf, rfl, ?_⟩
            intro b hr hc
            have hb := reaches_childless (by simp [hst, PNode.children]) hr
            subst hb
            rw [hst] at hc
            simp [PNode.isContainer] at hc
        | arr es =>
            have hbound : ∀ c ∈ es, c < h.next ∧ c < fuel := by
              intro c hc
              have hlt : c < a := hwf a c (by simp [hst, PNode.children, hc])
              exact ⟨lt_trans hlt ha, by omega⟩
            obtain ⟨h1, rs, heq, hn1, hpres, hrb, hwf1, hfa, hreach⟩ :=
              ih.2 h es hwf hbound
            have hch : ∀ c ∈ (PNode.arr rs).children, c < h1.next := by
              simpa [PNode.children] using hrb
            have hwfP : (h1.push (.arr rs)).WF := Heap.push_wf hwf1 hch
            refine ⟨h1.push (.arr rs), h1.next, by simp [copyTree, hst, heq],
              by rw [Heap.push_next]; omega, ?_, by rw [Heap.push_next]; omega,
              hwfP, ?_, ?_⟩
            · intro b hb
              rw [Heap.push_store_ne _ _ (by omega)]
              exact hpres b hb
            · -- value preservation
              rw [show getValue (h1.push (.arr rs)) h1.next =
                  JValue.arr (getValueListF (h1.push (.arr rs)) h1.next rs) from by
                simp [getValue, getValueF, Heap.push_store_self]]
              rw [getValueListF_map _ hwfP h1.next rs hrb]
              rw [show getValue h a = JValue.arr (getValueListF h a es) from by
                simp [getValue, getValueF, hst]]
              rw [getValueListF_map h hwf a es (fun c hc =>
                hwf a c (by simp [hst, PNode.children, hc]))]
              congr 1
              have hmapeq : ∀ r ∈ rs, getValue (h1.push (.arr rs)) r = getValue h1 r :=
                fun r hr => Heap.push_getValue hwf1 hch (hrb r hr)
              rw [List.map_congr_left hmapeq]
              exact forall2_map_eq hfa
            · -- fresh containers
              intro b hr hc
              cases hr with
              | refl => exact hn1
              | step hmem hrest =>
                  rename_i bmid
                  have hmem' : bmid ∈ rs := by
                    rw [Heap.push_store_self] at hmem
                    simpa [PNode.children] using hmem
                  have hblt : bmid < h1.next := hrb bmid hmem'
                  have htrans : Reaches h1 bmid b := by
                    refine reaches_of_agree hwf1 (fun c hcle => ?_) (le_refl bmid) hrest
                    exact Heap.push_store_ne _ _ (by omega)
                  have hble : b ≤ bmid := reaches_le hwf1 htrans
                  have hcb : (h1.store b).isContainer = true := by
                    rw [← Heap.push_store_ne h1 (.arr rs) (b := b) (by omega)]
                    exact hc
                  exact hreach bmid hmem' b htrans hcb
        | obj fs =>
            have hbound : ∀ c ∈ fs.map Prod.snd, c < h.next ∧ c < fuel := by
              intro c hc
              have hlt : c < a := hwf a c (by simp [hst, PNode.children, hc])
              exact ⟨lt_trans hlt ha, by omega⟩
            obtain ⟨h1, rs, heq, hn1, hpres, hrb, hwf1, hfa, hreach⟩ :=
              ih.2 h (fs.map Prod.snd) hwf hbound
            have hlen : rs.length = fs.length := by
              have := hfa.length_eq; simpa using this
            have hchildzip :
                PNode.children (.obj ((fs.map Prod.fst).zip rs)) = rs := by
              simp only [PNode.children]
              exact List.map_snd_zip _ _ (by simp [hlen])
            have hch : ∀ c ∈ (PNode.obj ((fs.map Prod.fst).zip rs)).children,
                c < h1.next := by
              rw [hchildzip]; exact hrb
            have hwfP : (h1.push (.obj ((fs.map Prod.fst).zip rs))).WF :=
              Heap.push_wf hwf1 hch
            refine ⟨h1.push (.obj ((fs.map Prod.fst).zip rs)), h1.next,
              by simp [copyTree, hst, heq],
              by rw [Heap.push_next]; omega, ?_, by rw [Heap.push_next]; omega,
              hwfP, ?_, ?_⟩
            · intro b hb
              rw [Heap.push_store_ne _ _ (by omega)]
              exact hpres b hb
            · -- value preservation
              rw [show getValue (h1.push (.obj ((fs.map Prod.fst).zip rs))) h1.next =
                  JValue.obj (getValueFieldsF (h1.push (.obj ((fs.map Prod.fst).zip rs)))
                    h1.next ((fs.map Prod.fst).zip rs)) from by
                simp [getValue, getValueF, Heap.push_store_self]]
              rw [getValueFieldsF_map _ hwfP h1.next _ (fun kv hkv => by
                have hm : kv.2 ∈ rs := by
                  rw [← List.map_snd_zip (fs.map Prod.fst) rs (by simp [hlen])]
                  exact List.mem_map_of_mem Prod.snd hkv
                exact hrb kv.2 hm)]
              rw [show getValue h a = JValue.obj (getValueFieldsF h a fs) from by
                simp [getValue, getValueF, hst]]
              rw [getValueFieldsF_map h hwf a fs (fun kv hkv =>
                hwf a kv.2 (by
                  simp only [hst, PNode.children, List.mem_map]
                  exact ⟨kv, hkv, rfl⟩))]
              congr 1
              have hmapeq : ∀ r ∈ rs,
                  getValue (h1.push (.obj ((fs.map Prod.fst).zip rs))) r =
                  getValue h1 r :=
                fun r hr => Heap.push_getValue hwf1 hch (hrb r hr)
              rw [List.map_congr_left (fun kv hkv => by
                have hm : kv.2 ∈ rs := by
                  rw [← List.map_snd_zip (fs.map Prod.fst) rs (by simp [hlen])]
                  exact List.mem_map_of_mem Prod.snd hkv
                show (kv.1, getValue (h1.push (.obj ((fs.map Prod.fst).zip rs))) kv.2) =
                  (kv.1, getValue h1 kv.2)
                rw [hmapeq kv.2 hm])]
              exact zip_fields_map_eq fs rs hfa
            · -- fresh containers
              intro b hr hc
              cases hr with
              | refl => exact hn1
              | step hmem hrest =>
                  rename_i bmid
                  have hmem' : bmid ∈ rs := by
                    rw [Heap.push_store_self, hchildzip] at hmem
                    exact hmem
                  have hblt : bmid < h1.next := hrb bmid hmem'
                  have htrans : Reaches h1 bmid b := by
                    refine reaches_of_agree hwf1 (fun c hcle => ?_) (le_refl bmid) hrest
                    exact Heap.push_store_ne _ _ (by omega)
                  have hble : b ≤ bmid := reaches_le hwf1 htrans
                  have hcb : (h1.store b).isContainer = true := by
                    rw [← Heap.push_store_ne h1 (.obj ((fs.map Prod.fst).zip rs))
                      (b := b) (by omega)]
                    exact hc
                  exact hreach bmid hmem' b htrans hcb
      refine ⟨treeP, ?_⟩
      intro h as_ hwf hb
      induction as_ generalizing h with
      | nil =>
          refine ⟨h, [], by simp [copyListH], le_refl _, fun _ _ => rfl, by simp,
            hwf, .nil, by simp⟩
      | cons c cs ihin =>
          obtain ⟨hcn, hcf⟩ := hb c (List.mem_cons_self _ _)
          obtain ⟨h1, r, heq1, hn1, hpres1, hrlt, hwf1, hval1, hre1⟩ :=
            treeP h c hwf hcn hcf
          obtain ⟨h2, rs, heq2, hn2, hpres2, hrlt2, hwf2, hval2, hre2⟩ :=
            ihin h1 hwf1 (fun x hx =>
              ⟨lt_of_lt_of_le (hb x (List.mem_cons_of_mem _ hx)).1 hn1,
                (hb x (List.mem_cons_of_mem _ hx)).2⟩)
          refine ⟨h2, r :: rs, by simp [copyListH, heq1, heq2],
            le_trans hn1 hn2, ?_, ?_, hwf2, ?_, ?_⟩
          · intro b hbn
            rw [hpres2 b (lt_of_lt_of_le hbn hn1), hpres1 b hbn]
          · intro x hx
            cases hx with
            | head => exact lt_of_lt_of_le hrlt hn2
            | tail _ hx' => exact hrlt2 x hx'
          · constructor
            · rw [show getValue h2 r = getValue h1 r from
                getValue_congr_reach hwf1 hwf2 r (fun b hbr =>
                  hpres2 b (lt_of_le_of_lt (reaches_le hwf1 hbr) hrlt))]
              exact hval1
            · -- lift the base heap of the tail from h1 to h
              have hlift : ∀ c' ∈ cs, getValue h1 c' = getValue h c' := by
                intro c' hc'
                exact getValue_congr_reach hwf hwf1 c' (fun b hbr =>
                  hpres1 b (lt_of_le_of_lt (reaches_le hwf hbr)
                    (hb c' (List.mem_cons_of_mem _ hc')).1))
              exact forall2_lift hval2 hlift
          · intro x hx b hbr hcb
            cases hx with
            | head =>
                have htrans : Reaches h1 r b := by
                  refine reaches_of_agree hwf1 (fun cc hcle => ?_) (le_refl r) hbr
                  exact hpres2 cc (lt_of_le_of_lt hcle hrlt)
                have hcb1 : (h1.store b).isContainer = true := by
                  rw [hpres2 b (lt_of_le_of_lt (reaches_le hwf1 htrans) hrlt)] at hcb
                  exact hcb
                exact hre1 b htrans hcb1
            | tail _ hx' =>
                exact le_trans hn1 (hre2 x hx' b hbr hcb)

/-! ### Concrete fixtures for the claim theorems -/

/-- DSL loop body of the repo's own control-flow tests
(`tests/unit/test_control_flow.py`): append the element to
`dest["result"]`, except that `"skip"` runs the `$continue` handler and
`"stop"` the `$break` handler of `handlers/flow.py`, which raise
`ContinueSignal` / `BreakSignal` out of `apply_to_context`. -/
def loopBodyT (elem : JValue) : BodyFn := fun dest =>
  if elem = .str "skip" then (dest, some .cont)
  else if elem = .str "stop" then (dest, some .brk)
  else
    match dest with
    | .obj fs =>
        match lookupField fs "result" with
        | some (.arr xs) => (.obj (setField fs "result" (.arr (xs ++ [elem]))), none)
        | _ => (dest, some (.err .keyError))
    | d => (d, some (.err .typeError))

/-- While-loop body that records an effect in dest and then breaks. -/
def whileBodyT : BodyFn := fun _ => (.obj [("touched", .bool true)], some .brk)

/-- Try-block body that raises `BreakSignal` (the `{"$break": null}` step of
`tests/unit/test_control_flow.py::test_try_does_not_catch_break_at_top_level`). -/
def doBrkC2 : BodyFn := fun d => (d, some .brk)

/-- Except block of the same test: `{"/caught": true}`. -/
def excC2 : PyExc → BodyFn := fun _ d =>
  (match d with
    | .obj fs => .obj (setField fs "caught" (.bool true))
    | d => d, none)

/-- Finally block `{"/cleanup": true}`. -/
def finC2 : BodyFn := fun d =>
  (match d with
    | .obj fs => .obj (setField fs "cleanup" (.bool true))
    | d => d, none)

/-- Context with distinguishable namespaces, for the prefix-resolution
theorems. -/
def ctxC3 : Ctx :=
  ⟨.str "SRC", .str "DST", [("cfg", .str "MET")],
    [("item", .str "TRO")], [("t", .str "TMP")]⟩

/-- Template environment of the default engine as far as the evaluated
paths reach: the built-in casters, and the external JMESPath evaluator left
abstract (never invoked by expressions that do not start with `?`). -/
def envC5 : TmplEnv := ⟨builtinCasters, fun _ _ => .error (.unmodelled "jmespath")⟩

/-- Empty-document context for the template theorems. -/
def ctxC5 : Ctx := ⟨.obj [], .obj [], [], [], []⟩

/-- Default value-pipeline step on the string/scalar domain (template
handler plus identity fallback) with the empty-document context. -/
def stepC5 : JValue → PipeOutcome := templValueStep envC5 ctxC5 50

/-- Minimal specials table containing the `$raw` wrapper; for an object
whose only key is `$raw`, the default engine's `SpecialResolveHandler`
dispatches to `raw_handler` exactly as this table does (the other
registered keys are absent from the step). -/
def rawSpecials : List (String × SpecialFn) := [("$raw", rawHandler)]

/-- Value-pipeline step with a counter: one identity handler execution per
iteration, incrementing the child context's `_operation_count`. -/
def stepC7 : JValue → Nat → PipeOutcomeC := fun v c => .next v (c + 1)

/-! ### Claim theorems -/

/-- C1.  The claim says a `BreakSignal` raised inside a `foreach` / `while`
body stops the loop cleanly and keeps the destination changes made so far,
and a `ContinueSignal` proceeds to the next element.  The code of
`ForeachHandler.execute` / `WhileHandler.execute` (`handlers/ops.py`)
wraps the loop in a bare `except Exception` which also catches these
signals (they subclass `Exception`), so it instead restores the pre-loop
snapshot and re-propagates the signal: on the repo's own test input
(`test_break_exits_foreach_early`) the loop ends with `dest` rolled back to
`{"result": []}` and `BreakSignal` escaping, not with
`{"result": ["a", "b"]}` and a clean stop. -/
theorem C1_loop_signal_rollback_bug :
    foreachExecute 100000
        (.arr [.str "a", .str "b", .str "stop", .str "c", .str "d"]) true
        loopBodyT (.obj [("result", .arr [])]) =
      (.obj [("result", .arr [])], some .brk) ∧
    foreachExecute 100000 (.arr [.str "a", .str "skip", .str "b"]) true
        loopBodyT (.obj [("result", .arr [])]) =
      (.obj [("result", .arr [])], some .cont) ∧
    whileExecute 10000 (fun _ => .ok true) whileBodyT false (.obj []) =
      (.obj [], some .brk) ∧
    ((.obj [("result", .arr [])], some PyExc.brk) ≠
      ((.obj [("result", .arr [.str "a", .str "b"])], none) :
        JValue × Option PyExc)) := by
  refine ⟨by decide, by decide, by decide, by decide⟩

/-- C2.  The claim says control-flow signals raised in a `try` step's `do`
block are never converted into caught-error state: `except` must not run
and the signal must propagate (with `finally` still executing).
`TryHandler.execute` (`handlers/ops.py`) catches them with its bare
`except Exception as e`: on a `do` block raising `BreakSignal`, the
`except` block runs with the signal recorded as error info, the signal is
swallowed, and the step returns normally. -/
theorem C2_try_catches_signals_bug :
    tryExecute (some doBrkC2) (some excC2) (some finC2) (.obj []) =
      (.obj [("caught", .bool true), ("cleanup", .bool true)], none) ∧
    tryExecute (some (fun d => (d, some (.ret (.int 42))))) (some excC2) none
        (.obj []) = (.obj [("caught", .bool true)], none) ∧
    (none : Option PyExc) ≠ some PyExc.brk := by
  refine ⟨by decide, by decide, by decide⟩

/-- C3.  The claim (and `tests/unit/test_pointer_prefixes.py`) give the
prefix map `@:` → real dest, `!:` → `ctx.temp`, `&:` → `ctx.temp_read_only`,
`_:`/none → `ctx.source`.  `PointerProcessor.resolve`
(`src/j_perm/pointer_processor.py`) instead resolves `_:` against
`ctx.metadata`, and has no `&:` / `!:` branches at all: such pointers fall
through to `ctx.source` with the tag still in the path. -/
theorem C3_processor_namespace_bug :
    procResolve "&:/item" ctxC3 = ("&:/item", ctxC3.source) ∧
    procResolve "!:/t" ctxC3 = ("!:/t", ctxC3.source) ∧
    procResolve "_:/cfg" ctxC3 = ("/cfg", .obj ctxC3.metadata) ∧
    procResolve "@:/x" ctxC3 = ("/x", ctxC3.dest) ∧
    JValue.obj ctxC3.metadata ≠ ctxC3.source ∧
    ctxC3.source ≠ .obj ctxC3.tempReadOnly ∧
    ctxC3.source ≠ .obj ctxC3.temp := by
  refine ⟨by decide, by decide, by decide, by decide, by decide, by decide, by decide⟩

/-- C5 (amended).  `Engine.process_value` either raises a recursion-depth
error when `value_max_depth` iterations are exhausted, or returns the
unescape-rules image of its loop's result — and that loop never exits with
an unstabilised value: a value it completes on is either a fixed point of
the value pipeline (one more iteration is the identity) or the payload of a
`RawValueSignal` raised during an iteration.  (The original claim, without
the unescape pass, fails: see the counterexample.) -/
theorem C5_process_value_stabilises (step : JValue → PipeOutcome)
    (rules : List (JValue → JValue)) (fuel : Nat) (v : JValue) :
    (∀ r, processValueLoop step fuel v = .done r →
      step r = .next r ∨ ∃ u, step u = .raw r) ∧
    processValueLoop step 0 v = .depthErr ∧
    (∀ r', processValue step rules fuel v = .done r' →
      ∃ r, processValueLoop step fuel v = .done r ∧
        r' = rules.foldl (fun acc rule => rule acc) r) := by
  refine ⟨?_, rfl, ?_⟩
  · intro r
    induction fuel generalizing v with
    | zero => intro h; cases h
    | succ fuel ih =>
        intro h
        simp only [processValueLoop] at h
        cases hstep : step v with
        | raw u =>
            simp only [hstep] at h
            cases h
            exact Or.inr ⟨v, hstep⟩
        | err e => simp only [hstep] at h; cases h
        | next u =>
            simp only [hstep] at h
            by_cases huv : u = v
            · rw [if_pos huv] at h
              cases h
              exact Or.inl (by rw [hstep, huv])
            · rw [if_neg huv] at h
              exact ih u h
  · intro r' h
    unfold processValue at h
    cases hloop : processValueLoop step fuel v with
    | done r =>
        rw [hloop] at h
        cases h
        exact ⟨r, rfl, rfl⟩
    | fail e => rw [hloop] at h; cases h
    | depthErr => rw [hloop] at h; cases h

/-- Witness for C5: the identity pipeline stabilises `null` immediately,
and the fixed-point disjunct of the theorem holds there. -/
theorem C5_witness :
    ((fun v => PipeOutcome.next v) JValue.null = .next .null ∨
      ∃ u, (fun v => PipeOutcome.next v) u = .raw .null) ∧
    processValueLoop (fun v => PipeOutcome.next v) 0 .null = .depthErr :=
  ⟨(C5_process_value_stabilises (fun v => .next v) [] 1 .null).1 .null (by decide),
    (C5_process_value_stabilises (fun v => .next v) [] 1 .null).2.1⟩

/-- C5 (counterexample).  On the default engine, `process_value` applied to
`"$${/a}"` (over empty documents) stabilises at that string and then the
registered `template_unescape` rule turns it into `"${/a}"` — a value on
which a further value-pipeline iteration is *not* the identity (the
template handler fires and resolves it to `null`), and which is no
`RawValueSignal` payload (this step never produces one).  So the function
returns an unstabilised value, contradicting the claim as stated. -/
theorem C5_counterexample :
    processValue stepC5 [templateUnescape] 50 (.str "$$\x7b/a\x7d") =
      .done (.str "$\x7b/a\x7d") ∧
    stepC5 (.str "$\x7b/a\x7d") = .next .null ∧
    JValue.null ≠ .str "$\x7b/a\x7d" ∧
    (∀ u, stepC5 u ≠ .raw (.str "$\x7b/a\x7d")) := by
  refine ⟨by decide, by decide, by decide, ?_⟩
  intro u
  cases u with
  | str s =>
      simp only [stepC5, templValueStep]
      by_cases hph : hasUnescapedPlaceholder s
      · rw [if_pos hph]
        cases htx : templExecute envC5 ctxC5 50 s <;> simp
      · rw [if_neg hph]
        simp
  | null => simp [stepC5, templValueStep]
  | bool b => simp [stepC5, templValueStep]
  | int n => simp [stepC5, templValueStep]
  | arr xs => simp [stepC5, templValueStep]
  | obj fs => simp [stepC5, templValueStep]

/-- C6 (amended).  In `TemplSubstHandler._resolve_expr`
(`handlers/template.py`), for an expression that is not a caster
expression, not a JMESPath expression, and contains no nested unescaped
placeholder, a failing JSON-Pointer resolution makes the substitutor
return `None` (`except Exception: return None`) — not the literal
expression string the claim (and the spec's documented design choice)
describe. -/
theorem C6_pointer_fallback_returns_null (env : TmplEnv) (ctx : Ctx)
    (fuel : Nat) (expr0 : String)
    (hcast : findCaster env.casters (strTrim expr0) = none)
    (hjmes : strStarts (strTrim expr0) "?" = false)
    (hnest : hasUnescapedPlaceholder (strTrim expr0) = false)
    (hfail : ∃ e, procGet
      (if strStarts (strTrim expr0) "@:" ∨ strStarts (strTrim expr0) "_:"
        then strTrim expr0 else "/" ++ lstripSlash (strTrim expr0)) ctx =
      .error e) :
    resolveExpr env ctx (fuel + 1) expr0 = .ok .null := by
  obtain ⟨e, he⟩ := hfail
  simp only [resolveExpr, resolveExprGo, hcast, hjmes, hnest, Bool.false_eq_true,
    if_false, he]

/-- Witness for C6: the expression `missing` over empty documents is no
caster/JMESPath/nested expression, its pointer read fails with `KeyError`,
and the result is `null`. -/
theorem C6_witness :
    findCaster envC5.casters (strTrim "missing") = none ∧
    resolveExpr envC5 ctxC5 (0 + 1) "missing" = .ok .null :=
  ⟨rfl,
    C6_pointer_fallback_returns_null envC5 ctxC5 0 "missing" rfl
      (by decide) (by decide) ⟨.keyError, by decide⟩⟩

/-- C6 (counterexample).  The claim says the unresolvable literal
expression `missing` passes through unexpanded (the substitutor returns
the literal string); the code returns `null` instead. -/
theorem C6_counterexample :
    resolveExpr envC5 ctxC5 1 "missing" = .ok .null ∧
    (Except.ok JValue.null : Except PyErr JValue) ≠ .ok (.str "missing") := by
  refine ⟨by decide, by decide⟩

/-- C7 (amended).  Within a `Pipeline.run` handler loop whose handlers only
ever advance the shared `_operation_count` (true of every nested run, which
increments before each dispatch), the counter is monotonically
non-decreasing; once it has reached `max_operations`, the next dispatch
raises `RuntimeError` before its handler executes, whatever that handler
is; and `Engine.process_value` returns the outer context's counter exactly
as it found it — its value-pipeline executions increment a per-iteration
copy of the metadata, not `ctx.metadata` (so they are *not* cumulated
there, which is where the original claim fails; see the counterexample). -/
theorem C7_operation_counter (maxOps : Nat) (hs : List HandlerC)
    (dest : JValue) (count : Nat)
    (hmono : ∀ h ∈ hs, ∀ d c d' c', h d c = .ok (d', c') → c ≤ c') :
    (∀ d' c', runHandlersCounted maxOps hs dest count = .ok (d', c') →
      count ≤ c') ∧
    (∀ (h : HandlerC) (rest : List HandlerC), maxOps ≤ count →
      runHandlersCounted maxOps (h :: rest) dest count =
        .error (.err .runtimeError)) ∧
    (∀ (stepC : JValue → Nat → PipeOutcomeC) (fuel : Nat) (v : JValue)
      (outer : Nat), (processValueCounted stepC outer fuel v).2.1 = outer) := by
  refine ⟨?_, ?_, fun _ _ _ _ => rfl⟩
  · induction hs generalizing dest count with
    | nil =>
        intro d' c' h
        simp only [runHandlersCounted] at h
        cases h
        exact le_refl _
    | cons hd rest ih =>
        intro d' c' h
        simp only [runHandlersCounted] at h
        by_cases hlt : maxOps < count + 1
        · rw [if_pos hlt] at h; cases h
        · rw [if_neg hlt] at h
          cases hres : hd dest (count + 1) with
          | ok p =>
              obtain ⟨d1, c1⟩ := p
              rw [hres] at h
              have h1 : count + 1 ≤ c1 :=
                hmono hd (List.mem_cons_self _ _) dest (count + 1) d1 c1 hres
              have h2 : c1 ≤ c' :=
                ih d1 c1 (fun x hx => hmono x (List.mem_cons_of_mem _ hx)) d' c' h
              omega
          | error e => rw [hres] at h; cases h
  · intro h rest hle
    simp only [runHandlersCounted]
    rw [if_pos (by omega)]

/-- Witness for C7: a two-handler pipeline, each handler a pure increment,
runs the counter from 0 to 2 and the theorem's monotonicity bound holds. -/
theorem C7_witness :
    runHandlersCounted 5 [fun d c => .ok (d, c), fun d c => .ok (d, c)]
        .null 0 = .ok (.null, 2) ∧
    (0 : Nat) ≤ 2 :=
  ⟨by decide,
    (C7_operation_counter 5 [fun d c => .ok (d, c), fun d c => .ok (d, c)]
      .null 0 (by
        intro h hh d c d' c' he
        simp only [List.mem_cons, List.mem_singleton] at hh
        rcases hh with rfl | rfl | hh
        · cases he; exact le_refl _
        · cases he; exact le_refl _
        · cases hh)).1 .null 2 (by decide)⟩

/-- C7 (counterexample).  Processing a value whose single pipeline
iteration executes one handler leaves the outer `ctx.metadata` counter at
0; a cumulative count of *all* handler executions (main and value
pipeline), as the claim states, would be 1. -/
theorem C7_counterexample :
    processValueCounted stepC7 0 50 (.int 7) = (.done (.int 7), 0, 1) ∧
    (0 : Nat) ≠ 1 := by
  refine ⟨by decide, by decide⟩

/-- C8 (amended).  For every value `x`, the default engine evaluates
`process_value({"$raw": x})` to the image of `x` under the registered
`template_unescape` rule: the `$raw` wrapper raises `RawValueSignal(x)`,
the stabilisation loop stops with payload `x`, and `Engine.process_value`
then applies its unescape rules to the payload.  The result equals `x`
itself exactly when `x` carries no `$${` / `$$` escape sequences — the
original unconditional `== x` fails (see the counterexample). -/
theorem C8_raw_transparency (ctx : Ctx) (x : JValue) (fuel : Nat) :
    processValue (specialStep rawSpecials ctx) [templateUnescape] (fuel + 1)
      (.obj [("$raw", x)]) = .done (templateUnescape x) := by
  have hstep : specialStep rawSpecials ctx (.obj [("$raw", x)]) = .raw x := by
    simp [specialStep, specialExecute, rawSpecials, rawHandler, lookupField]
  simp only [processValue, processValueLoop, hstep, List.foldl]

/-- C8 (counterexample).  At `x = "$$"` the code returns `"$"`, not `x`:
the unescape pass applies to `RawValueSignal` payloads as well. -/
theorem C8_counterexample :
    processValue (specialStep rawSpecials ctxC5) [templateUnescape] 50
      (.obj [("$raw", .str "$$")]) = .done (.str "$") ∧
    JValue.str "$" ≠ .str "$$" := by
  refine ⟨by decide, by decide⟩

/-- What `SetHandler` appends for a resolved `value` under the `extend`
flag: a list value with `extend=true` extends the parent, anything else is
appended as a single element. -/
def c9app (value : JValue) (ext : Bool) (xs : List JValue) : List JValue :=
  match value, ext with
  | .arr vs, true => xs ++ vs
  | w, _ => xs ++ [w]

/-- C9 (amended).  `set` with a dash (append) leaf.  At a proper (non-root)
parent location `/k` holding `v`: (a) a list parent is appended to, under
any `create`; (b) with `create=true` an empty-object parent is first
replaced by `[]`; (c) with `create=true` any other non-list parent `v` is
first replaced by `[v]`; (d) with `create=false` a non-list parent raises
`TypeError`.  At the root parent (the path is just slash-dash, so the dest
itself is `v`):
(e) with `create=true` a non-list dest is *not* converted — the conversion
write is a `PointerProcessor.set` on a root pointer, a silent no-op — and
the append on the unconverted value raises `AttributeError`; (f) a list
dest is appended to in place, under any `create`. -/
theorem C9_set_append_conversion (s v value : JValue) (ext : Bool) :
    (∀ xs create, v = .arr xs →
      setExecute "/k/-" create ext value ⟨s, .obj [("k", v)], [], [], []⟩ =
        .ok ⟨s, .obj [("k", .arr (c9app value ext xs))], [], [], []⟩) ∧
    (v = .obj [] →
      setExecute "/k/-" true ext value ⟨s, .obj [("k", v)], [], [], []⟩ =
        .ok ⟨s, .obj [("k", .arr (c9app value ext []))], [], [], []⟩) ∧
    ((∀ xs, v ≠ .arr xs) → v ≠ .obj [] →
      setExecute "/k/-" true ext value ⟨s, .obj [("k", v)], [], [], []⟩ =
        .ok ⟨s, .obj [("k", .arr (c9app value ext [v]))], [], [], []⟩) ∧
    ((∀ xs, v ≠ .arr xs) →
      setExecute "/k/-" false ext value ⟨s, .obj [("k", v)], [], [], []⟩ =
        .error .typeError) ∧
    ((∀ xs, v ≠ .arr xs) →
      setExecute "/-" true ext value ⟨s, v, [], [], []⟩ =
        .error .attributeError) ∧
    (∀ xs create, v = .arr xs →
      setExecute "/-" create ext value ⟨s, v, [], [], []⟩ =
        .ok ⟨s, .arr (c9app value ext xs), [], [], []⟩) := by
  refine ⟨?_, ?_, ?_, ?_, ?_, ?_⟩
  · rintro xs create rfl
    cases value <;> cases ext <;> rfl
  · rintro rfl
    cases value <;> cases ext <;> rfl
  · intro hna hne
    cases v with
    | arr xs => exact absurd rfl (hna xs)
    | obj fs =>
        cases fs with
        | nil => exact absurd rfl hne
        | cons kv fs' => cases value <;> cases ext <;> rfl
    | null => cases value <;> cases ext <;> rfl
    | bool b => cases value <;> cases ext <;> rfl
    | int n => cases value <;> cases ext <;> rfl
    | str st => cases value <;> cases ext <;> rfl
  · intro hna
    cases v with
    | arr xs => exact absurd rfl (hna xs)
    | obj fs => cases fs with | nil => rfl | cons kv fs' => rfl
    | null => rfl
    | bool b => rfl
    | int n => rfl
    | str st => rfl
  · intro hna
    cases v with
    | arr xs => exact absurd rfl (hna xs)
    | obj fs => cases fs with | nil => rfl | cons kv fs' => rfl
    | null => rfl
    | bool b => rfl
    | int n => rfl
    | str st => rfl
  · rintro xs create rfl
    cases value <;> cases ext <;> rfl

/-- Witness for C9: appending `7` under the dash leaf of `/k` where `/k` currently holds
the scalar `5` (with `create=true`) first wraps the scalar, giving
`[5, 7]`. -/
theorem C9_witness :
    setExecute "/k/-" true true (.int 7)
        ⟨.null, .obj [("k", .int 5)], [], [], []⟩ =
      .ok ⟨.null, .obj [("k", .arr [.int 5, .int 7])], [], [], []⟩ :=
  (C9_set_append_conversion .null (.int 5) (.int 7) true).2.2.1
    (fun _ h => nomatch h) (by decide)

/-- C9 (counterexample).  At the root parent — a `set` step whose path is
the bare slash-dash append pointer, with `value = 7` and `create = true`,
on dest `\x7b\x7d` — the claimed conversion does not happen: the
conversion write is a `PointerProcessor.set` on the root pointer, which
discards the resolver's root return and is a silent no-op, so the append
runs on the unconverted `dict` and raises `AttributeError`; the claimed
result `[7]` is never produced. -/
theorem C9_counterexample :
    setExecute "/-" true true (.int 7) ⟨.null, .obj [], [], [], []⟩ =
      .error .attributeError ∧
    ((Except.error PyErr.attributeError : Except PyErr Ctx) ≠
      .ok ⟨.null, .arr [.int 7], [], [], []⟩) :=
  ⟨rfl, fun h => nomatch h⟩

/-- Behaviour of the recursive-descent field loop under a functional
description of the key/value pipelines: if every key's image is distinct
the object is rebuilt with processed keys and values; otherwise the first
collision raises `KeyError`. -/
theorem recDescendFields_spec (pk : String → Except PyExc JValue)
    (pv : JValue → Except PyExc JValue) (gk : String → JValue)
    (gv : JValue → JValue) :
    ∀ (fs : List (String × JValue)) (out : List (JValue × JValue)),
    (∀ kv ∈ fs, pk kv.1 = .ok (gk kv.1)) →
    (∀ kv ∈ fs, pv kv.2 = .ok (gv kv.2)) →
    (out.map Prod.fst).Nodup →
    (((out.map Prod.fst) ++ fs.map fun kv => gk kv.1).Nodup →
      recDescendFields pk pv fs out =
        .ok (out.reverse ++ fs.map fun kv => (gk kv.1, gv kv.2))) ∧
    (¬ ((out.map Prod.fst) ++ fs.map fun kv => gk kv.1).Nodup →
      recDescendFields pk pv fs out = .error (.err .keyError)) := by
  intro fs
  induction fs with
  | nil =>
      intro out _ _ hout
      refine ⟨fun _ => ?_, fun hnd => ?_⟩
      · simp [recDescendFields]
      · exact absurd (by simpa using hout) hnd
  | cons kv fs ih =>
      intro out hk hv hout
      obtain ⟨k, v⟩ := kv
      have hk0 : pk k = .ok (gk k) := hk (k, v) (List.mem_cons_self _ _)
      have hv0 : pv v = .ok (gv v) := hv (k, v) (List.mem_cons_self _ _)
      by_cases hmem : gk k ∈ out.map Prod.fst
      · -- collision with an already-produced key: the guard fires
        have hany : out.any (fun p => decide (p.1 = gk k)) = true := by
          rw [List.any_eq_true]
          obtain ⟨p, hp, hpk⟩ := List.mem_map.mp hmem
          exact ⟨p, hp, by simpa using hpk⟩
        have hstep : recDescendFields pk pv ((k, v) :: fs) out =
            .error (.err .keyError) := by
          simp only [recDescendFields, hk0]
          rw [if_pos hany]
        have hdup : ¬ ((out.map Prod.fst) ++
            (((k, v) :: fs).map fun kv => gk kv.1)).Nodup := by
          intro hnd
          have := (List.nodup_append.mp hnd).2.2
          exact this hmem (by simp)
        exact ⟨fun hnd => absurd hnd hdup, fun _ => hstep⟩
      · -- fresh key: push and recurse
        have hany : out.any (fun p => decide (p.1 = gk k)) = false := by
          rw [List.any_eq_false]
          intro p hp
          simp only [decide_eq_true_eq]
          intro hpk
          exact hmem (List.mem_map.mpr ⟨p, hp, hpk⟩)
        have hstep : recDescendFields pk pv ((k, v) :: fs) out =
            recDescendFields pk pv fs ((gk k, gv v) :: out) := by
          simp only [recDescendFields, hk0]
          rw [if_neg (by simp [hany]), hv0]
        have hout' : (((gk k, gv v) :: out).map Prod.fst).Nodup := by
          simp only [List.map_cons, List.nodup_cons]
          exact ⟨hmem, hout⟩
        have hperm :
            ((out.map Prod.fst) ++ (((k, v) :: fs).map fun kv => gk kv.1)).Perm
              ((((gk k, gv v) :: out).map Prod.fst) ++
                (fs.map fun kv => gk kv.1)) := by
          have hmid : List.Perm
              ((out.map Prod.fst) ++ gk k :: (fs.map fun kv => gk kv.1))
              (gk k :: ((out.map Prod.fst) ++ fs.map fun kv => gk kv.1)) :=
            List.perm_middle
          simp only [List.map_cons, List.cons_append]
          exact hmid
        have ihres := ih ((gk k, gv v) :: out)
          (fun p hp => hk p (List.mem_cons_of_mem _ hp))
          (fun p hp => hv p (List.mem_cons_of_mem _ hp)) hout'
        constructor
        · intro hnd
          rw [hstep, (ihres.1 (hperm.nodup_iff.mp hnd))]
          simp
        · intro hnd
          rw [hstep, ihres.2 (fun h => hnd (hperm.nodup_iff.mpr h))]

/-- C10.  When every key of an object maps through the key pipeline to
`.ok (gk key)` and every value to `.ok (gv value)`, the recursive-descent
handler rebuilds the object with the processed keys and values provided
the processed keys are pairwise distinct; if two keys collide after
processing it raises `KeyError` instead of silently overwriting. -/
theorem C10_recursive_key_processing (pk : String → Except PyExc JValue)
    (pv : JValue → Except PyExc JValue) (gk : String → JValue)
    (gv : JValue → JValue) (fs : List (String × JValue))
    (hgk : ∀ kv ∈ fs, pk kv.1 = .ok (gk kv.1))
    (hgv : ∀ kv ∈ fs, pv kv.2 = .ok (gv kv.2)) :
    ((fs.map fun kv => gk kv.1).Nodup →
      recDescendObj pk pv fs = .ok (fs.map fun kv => (gk kv.1, gv kv.2))) ∧
    (¬ (fs.map fun kv => gk kv.1).Nodup →
      recDescendObj pk pv fs = .error (.err .keyError)) := by
  have h := recDescendFields_spec pk pv gk gv fs [] hgk hgv (by simp)
  refine ⟨fun hnd => ?_, fun hnd => ?_⟩
  · have := h.1 (by simpa using hnd)
    simpa [recDescendObj] using this
  · have := h.2 (by simpa using hnd)
    simpa [recDescendObj] using this

/-- Witness for C10: with the identity-as-string key pipeline the object
`\x7b"a": 1, "b": 2\x7d` is rebuilt with string keys, and a duplicating
pipeline sending every key to `"x"` raises `KeyError`. -/
theorem C10_witness :
    (recDescendObj (fun k => .ok (.str k)) (fun v => .ok v)
        [("a", .int 1), ("b", .int 2)] =
      .ok [(.str "a", .int 1), (.str "b", .int 2)]) ∧
    (recDescendObj (fun _ => .ok (.str "x")) (fun v => .ok v)
        [("a", .int 1), ("b", .int 2)] =
      .error (.err .keyError)) :=
  ⟨(C10_recursive_key_processing (fun k => .ok (.str k)) (fun v => .ok v)
      JValue.str id [("a", .int 1), ("b", .int 2)]
      (fun _ _ => rfl) (fun _ _ => rfl)).1 (by decide),
   (C10_recursive_key_processing (fun _ => .ok (.str "x")) (fun v => .ok v)
      (fun _ => .str "x") id [("a", .int 1), ("b", .int 2)]
      (fun _ _ => rfl) (fun _ _ => rfl)).2 (by decide)⟩

/-- C4.  `Engine.apply` never mutates the caller's arguments and returns a
detached copy: with a well-formed store, whatever the main pipeline (`run`)
does — provided it only writes addresses reachable from its own context
(the normalised source `srcA'` and the deep-copied dest `destA'`) or
freshly allocated ones, and cannot write through scalars (Python
immutables) — the values observed at the caller's `srcA` and `destA` are
unchanged after `apply`, the result observes the final internal dest, and
no container reachable from the result pre-dates the pipeline's output
store (the result shares no mutable structure with the execution
context). -/
theorem C4_apply_no_mutation (run : Heap → Nat → Nat → Heap × Nat)
    (h₀ : Heap) (srcA destA : Nat)
    (hwf : h₀.WF) (hsrc : srcA < h₀.next) (hdest : destA < h₀.next)
    (h₁ : Heap) (srcA' : Nat) (h₂ : Heap) (destA' : Nat)
    (h₃ : Heap) (finalA : Nat)
    (heq₁ : copyTree (srcA + 1) h₀ srcA = some (h₁, srcA'))
    (heq₂ : copyTree (destA + 1) h₁ destA = some (h₂, destA'))
    (hrun : run h₂ srcA' destA' = (h₃, finalA))
    (hwf₃ : h₃.WF) (hfin : finalA < h₃.next) (hnext₃ : h₂.next ≤ h₃.next)
    (hframe : ∀ b, b < h₂.next → ¬ Reaches h₂ srcA' b →
      ¬ Reaches h₂ destA' b → h₃.store b = h₂.store b)
    (hscal : ∀ b, b < h₂.next → (h₂.store b).isContainer = false →
      h₃.store b = h₂.store b) :
    ∃ h₄ resA,
      applyStore run h₀ srcA destA = some (h₄, resA) ∧
      getValue h₄ srcA = getValue h₀ srcA ∧
      getValue h₄ destA = getValue h₀ destA ∧
      getValue h₄ resA = getValue h₃ finalA ∧
      (∀ b, Reaches h₄ resA b → (h₄.store b).isContainer = true →
        h₃.next ≤ b) := by
  obtain ⟨h₁x, sx, heq₁x, hok₁⟩ :=
    (copyTree_ok (srcA + 1)).1 h₀ srcA hwf hsrc (Nat.lt_succ_self srcA)
  rw [heq₁x] at heq₁
  injection heq₁ with hp₁
  injection hp₁ with e₁ e₂
  rw [e₁, e₂] at heq₁x hok₁
  unfold CopyOk at hok₁
  obtain ⟨hle₁, hpres₁, hbnd₁, hwf₁, _, hfresh₁⟩ := hok₁
  obtain ⟨h₂x, dx, heq₂x, hok₂⟩ :=
    (copyTree_ok (destA + 1)).1 h₁ destA hwf₁ (lt_of_lt_of_le hdest hle₁)
      (Nat.lt_succ_self destA)
  rw [heq₂x] at heq₂
  injection heq₂ with hp₂
  injection hp₂ with e₃ e₄
  rw [e₃, e₄] at heq₂x hok₂
  unfold CopyOk at hok₂
  obtain ⟨hle₂, hpres₂, hbnd₂, hwf₂, _, hfresh₂⟩ := hok₂
  obtain ⟨h₄, resA, heq₃, hok₃⟩ :=
    (copyTree_ok (finalA + 1)).1 h₃ finalA hwf₃ hfin (Nat.lt_succ_self finalA)
  unfold CopyOk at hok₃
  obtain ⟨hle₃, hpres₃, hbnd₃, hwf₄, hval₃, hfresh₃⟩ := hok₃
  -- the pipeline leaves everything the caller handed in untouched
  have hpres03 : ∀ b, b < h₀.next → h₃.store b = h₂.store b := by
    intro b hb
    have hb2 : b < h₂.next := lt_of_lt_of_le hb (le_trans hle₁ hle₂)
    by_cases hcont : (h₂.store b).isContainer = true
    · have hns : ¬ Reaches h₂ srcA' b := by
        intro hre
        have hre1 : Reaches h₁ srcA' b :=
          reaches_of_agree hwf₁
            (fun c hc => hpres₂ c (lt_of_le_of_lt hc hbnd₁))
            (le_refl srcA') hre
        have hsame : h₂.store b = h₁.store b :=
          hpres₂ b (lt_of_lt_of_le hb hle₁)
        have hcont1 : (h₁.store b).isContainer = true := by
          rw [← hsame]; exact hcont
        have := hfresh₁ b hre1 hcont1
        omega
      have hnd : ¬ Reaches h₂ destA' b := by
        intro hre
        have := hfresh₂ b hre hcont
        omega
      exact hframe b hb2 hns hnd
    · have hfalse : (h₂.store b).isContainer = false := by
        cases hcb : (h₂.store b).isContainer with
        | false => rfl
        | true => exact absurd hcb hcont
      exact hscal b hb2 hfalse
  have hpres04 : ∀ b, b < h₀.next → h₄.store b = h₀.store b := by
    intro b hb
    have h34 : h₄.store b = h₃.store b :=
      hpres₃ b (lt_of_lt_of_le (lt_of_lt_of_le hb (le_trans hle₁ hle₂)) hnext₃)
    rw [h34, hpres03 b hb, hpres₂ b (lt_of_lt_of_le hb hle₁), hpres₁ b hb]
  refine ⟨h₄, resA, ?_, ?_, ?_, hval₃, hfresh₃⟩
  · simp only [applyStore, heq₁x, heq₂x, hrun, heq₃]
  · exact getValue_congr_reach hwf hwf₄ srcA
      (fun b hb => hpres04 b (lt_of_le_of_lt (reaches_le hwf hb) hsrc))
  · exact getValue_congr_reach hwf hwf₄ destA
      (fun b hb => hpres04 b (lt_of_le_of_lt (reaches_le hwf hb) hdest))

/-- One-scalar store used to instantiate the `apply` theorem. -/
def c4heap : Heap := ⟨fun _ => PNode.scalar .null, 1⟩

/-- Witness for C4: a single-scalar store, root source and dest, and the
identity pipeline satisfy every hypothesis, so `applyStore` succeeds and
preserves the caller's observations. -/
theorem C4_witness :
    ∃ h₄ resA,
      applyStore (fun h _ d => (h, d)) c4heap 0 0 = some (h₄, resA) ∧
      getValue h₄ 0 = getValue c4heap 0 ∧
      getValue h₄ 0 = getValue c4heap 0 ∧
      getValue h₄ resA = getValue c4heap 0 ∧
      (∀ b, Reaches h₄ resA b → (h₄.store b).isContainer = true →
        c4heap.next ≤ b) :=
  C4_apply_no_mutation (fun h _ d => (h, d)) c4heap 0 0
    (fun _ _ hc => nomatch hc) Nat.one_pos Nat.one_pos
    c4heap 0 c4heap 0 c4heap 0
    (by simp [copyTree, c4heap]) (by simp [copyTree, c4heap]) rfl
    (fun _ _ hc => nomatch hc) Nat.one_pos (le_refl 1)
    (fun _ _ _ _ => rfl) (fun _ _ _ => rfl)

end JPerm

